import Mathlib

/-!
Verification of the pyqmc sampling core (mc.py, pyqmc/distance.py, pyqmc/obdm.py)
against its natural-language specification.

The code is embedded shallowly over exact rational arithmetic:

* numpy arrays of shape `nconf x n x 3` become `List (List Vec3)` with `Vec3`
  a record of three rationals; elementwise/broadcast numpy operations become
  the corresponding elementwise list operations;
* `np.argmin` (first index attaining the minimum) becomes `argminIdx`;
  the source compares Euclidean norms, we compare squared norms, which is the
  same comparison (`sqrt` is strictly monotone on nonnegatives) and hence
  selects the same index;
* `np.linalg.inv` on a 3x3 matrix becomes the explicit adjugate/determinant
  formula `inv3`;
* stochastic draws (`np.random.randn`, `np.random.rand`, `np.random.choice`)
  become explicit input parameters holding the drawn values;
* the external wavefunction's `testvalue`/`updateinternals` contract becomes
  an abstract function parameter plus an explicit record of the calls made.
-/

/-- A 3-dimensional vector with exact rational coordinates
(one row of a numpy `... x 3` array). -/
structure Vec3 where
  x : ℚ
  y : ℚ
  z : ℚ
deriving DecidableEq, Repr

instance : Add Vec3 := ⟨fun u v => ⟨u.x + v.x, u.y + v.y, u.z + v.z⟩⟩

instance : Sub Vec3 := ⟨fun u v => ⟨u.x - v.x, u.y - v.y, u.z - v.z⟩⟩

instance : Zero Vec3 := ⟨⟨0, 0, 0⟩⟩

instance : SMul ℚ Vec3 := ⟨fun q v => ⟨q * v.x, q * v.y, q * v.z⟩⟩

theorem Vec3.add_def (u v : Vec3) : u + v = ⟨u.x + v.x, u.y + v.y, u.z + v.z⟩ := rfl

theorem Vec3.sub_def (u v : Vec3) : u - v = ⟨u.x - v.x, u.y - v.y, u.z - v.z⟩ := rfl

theorem Vec3.zero_def : (0 : Vec3) = ⟨0, 0, 0⟩ := rfl

theorem Vec3.smul_def (q : ℚ) (v : Vec3) : q • v = ⟨q * v.x, q * v.y, q * v.z⟩ := rfl

theorem Vec3.add_zero (v : Vec3) : v + 0 = v := by
  cases v; simp [Vec3.add_def, Vec3.zero_def]

/-- Euclidean dot product. -/
def dotV (u v : Vec3) : ℚ := u.x * v.x + u.y * v.y + u.z * v.z

/-- Squared Euclidean norm.  `np.linalg.norm v = Real.sqrt (normSq v)`. -/
def normSq (v : Vec3) : ℚ := dotV v v

theorem normSq_nonneg (v : Vec3) : 0 ≤ normSq v := by
  unfold normSq dotV
  have hx := mul_self_nonneg v.x
  have hy := mul_self_nonneg v.y
  have hz := mul_self_nonneg v.z
  linarith

/-- A 3x3 matrix of lattice vectors; as in the source, each row is one
lattice vector (`latvec[0] = a`, `latvec[1] = b`, `latvec[2] = c`). -/
structure Mat3 where
  a : Vec3
  b : Vec3
  c : Vec3
deriving DecidableEq, Repr

/-- Row vector times matrix: `np.dot(v, M)` for `v` of shape `(3,)`. -/
def rowMul (v : Vec3) (M : Mat3) : Vec3 :=
  ⟨v.x * M.a.x + v.y * M.b.x + v.z * M.c.x,
   v.x * M.a.y + v.y * M.b.y + v.z * M.c.y,
   v.x * M.a.z + v.y * M.b.z + v.z * M.c.z⟩

/-- Determinant of a 3x3 matrix. -/
def det3 (M : Mat3) : ℚ :=
  M.a.x * (M.b.y * M.c.z - M.b.z * M.c.y)
  - M.a.y * (M.b.x * M.c.z - M.b.z * M.c.x)
  + M.a.z * (M.b.x * M.c.y - M.b.y * M.c.x)

/-- Matrix inverse via the adjugate formula; the exact-arithmetic embedding of
`np.linalg.inv(latvec)` (meaningful when `det3 M ≠ 0`). -/
def inv3 (M : Mat3) : Mat3 :=
  let d := det3 M
  ⟨⟨(M.b.y * M.c.z - M.b.z * M.c.y) / d,
    -(M.a.y * M.c.z - M.a.z * M.c.y) / d,
    (M.a.y * M.b.z - M.a.z * M.b.y) / d⟩,
   ⟨-(M.b.x * M.c.z - M.b.z * M.c.x) / d,
    (M.a.x * M.c.z - M.a.z * M.c.x) / d,
    -(M.a.x * M.b.z - M.a.z * M.b.x) / d⟩,
   ⟨(M.b.x * M.c.y - M.b.y * M.c.x) / d,
    -(M.a.x * M.c.y - M.a.y * M.c.x) / d,
    (M.a.x * M.b.y - M.a.y * M.b.x) / d⟩⟩

theorem rowMul_inv3_rowMul (M : Mat3) (hdet : det3 M ≠ 0) (v : Vec3) :
    rowMul (rowMul v (inv3 M)) M = v := by
  obtain ⟨⟨ax, ay, az⟩, ⟨bx, by', bz⟩, ⟨cx, cy, cz⟩⟩ := M
  obtain ⟨vx, vy, vz⟩ := v
  unfold det3 at hdet
  simp only [rowMul, inv3, det3, Vec3.mk.injEq]
  refine ⟨?_, ?_, ?_⟩ <;> field_simp <;> ring

theorem rowMul_add (u v : Vec3) (M : Mat3) :
    rowMul (u + v) M = rowMul u M + rowMul v M := by
  obtain ⟨⟨ax, ay, az⟩, ⟨bx, by', bz⟩, ⟨cx, cy, cz⟩⟩ := M
  simp only [rowMul, Vec3.add_def, Vec3.mk.injEq]
  refine ⟨by ring, by ring, by ring⟩

theorem rowMul_zero (M : Mat3) : rowMul 0 M = 0 := by
  simp [rowMul, Vec3.zero_def]

/-- Expansion of the squared norm of a row-matrix product when the rows of the
matrix are mutually orthogonal. -/
theorem normSq_rowMul_orthogonal (M : Mat3) (hab : dotV M.a M.b = 0)
    (hbc : dotV M.b M.c = 0) (hca : dotV M.c M.a = 0) (v : Vec3) :
    normSq (rowMul v M)
      = v.x ^ 2 * normSq M.a + v.y ^ 2 * normSq M.b + v.z ^ 2 * normSq M.c := by
  obtain ⟨⟨ax, ay, az⟩, ⟨bx, by', bz⟩, ⟨cx, cy, cz⟩⟩ := M
  obtain ⟨vx, vy, vz⟩ := v
  simp only [normSq, dotV, rowMul] at hab hbc hca ⊢
  linear_combination (2 * vx * vy) * hab + (2 * vy * vz) * hbc + (2 * vz * vx) * hca

theorem normSq_pos_of_ne_zero (v : Vec3) (hv : v ≠ 0) : 0 < normSq v := by
  rcases lt_or_eq_of_le (normSq_nonneg v) with h | h
  · exact h
  · exfalso
    apply hv
    obtain ⟨vx, vy, vz⟩ := v
    simp only [normSq, dotV] at h
    have hx : vx = 0 := by nlinarith [sq_nonneg vx, sq_nonneg vy, sq_nonneg vz]
    have hy : vy = 0 := by nlinarith [sq_nonneg vx, sq_nonneg vy, sq_nonneg vz]
    have hz : vz = 0 := by nlinarith [sq_nonneg vx, sq_nonneg vy, sq_nonneg vz]
    simp [Vec3.zero_def, hx, hy, hz]

theorem row_a_ne_zero_of_det (M : Mat3) (hdet : det3 M ≠ 0) : M.a ≠ 0 := by
  intro h
  apply hdet
  obtain ⟨⟨ax, ay, az⟩, ⟨bx, by', bz⟩, ⟨cx, cy, cz⟩⟩ := M
  simp only [Vec3.zero_def, Vec3.mk.injEq] at h
  simp [det3, h.1, h.2.1, h.2.2]

theorem row_b_ne_zero_of_det (M : Mat3) (hdet : det3 M ≠ 0) : M.b ≠ 0 := by
  intro h
  apply hdet
  obtain ⟨⟨ax, ay, az⟩, ⟨bx, by', bz⟩, ⟨cx, cy, cz⟩⟩ := M
  simp only [Vec3.zero_def, Vec3.mk.injEq] at h
  simp only [det3]
  rw [h.1, h.2.1, h.2.2]
  ring

theorem row_c_ne_zero_of_det (M : Mat3) (hdet : det3 M ≠ 0) : M.c ≠ 0 := by
  intro h
  apply hdet
  obtain ⟨⟨ax, ay, az⟩, ⟨bx, by', bz⟩, ⟨cx, cy, cz⟩⟩ := M
  simp only [Vec3.zero_def, Vec3.mk.injEq] at h
  simp only [det3]
  rw [h.1, h.2.1, h.2.2]
  ring

/-- Linear scan keeping the (index, value) of the current minimum; updates
only on a strict decrease, so ties keep the earliest index. -/
def argminAux : List ℚ → ℕ × ℚ → ℕ → ℕ × ℚ
  | [], best, _ => best
  | q :: qs, best, i =>
      if q < best.2 then argminAux qs (i, q) (i + 1) else argminAux qs best (i + 1)

/-- Index of the first occurrence of the minimum of a list of rationals:
the semantics of `np.argmin` along an axis (numpy documents that ties return
the first occurrence). -/
def argminIdx (l : List ℚ) : ℕ :=
  match l with
  | [] => 0
  | q :: qs => (argminAux qs (0, q) 1).1

theorem argminAux_spec (xs : List ℚ) : ∀ (l : List ℚ) (i : ℕ) (best : ℕ × ℚ),
    l.drop i = xs → i ≤ l.length →
    best.1 < i → l.getD best.1 0 = best.2 →
    (∀ u, u < i → best.2 ≤ l.getD u 0) →
    (∀ u, u < best.1 → best.2 < l.getD u 0) →
    (argminAux xs best i).1 < l.length ∧
    l.getD (argminAux xs best i).1 0 = (argminAux xs best i).2 ∧
    (∀ u, u < l.length → (argminAux xs best i).2 ≤ l.getD u 0) ∧
    (∀ u, u < (argminAux xs best i).1 → (argminAux xs best i).2 < l.getD u 0) := by
  induction xs with
  | nil =>
    intro l i best hdrop hile hb1 hb2 hmin hstrict
    have hlen : i = l.length := by
      have := congrArg List.length hdrop
      simp at this
      omega
    subst hlen
    exact ⟨hb1, hb2, fun u hu => hmin u hu, hstrict⟩
  | cons q qs ih =>
    intro l i best hdrop hile hb1 hb2 hmin hstrict
    have hilt : i < l.length := by
      have := congrArg List.length hdrop
      simp at this
      omega
    have hq : l.getD i 0 = q := by
      have h0 : l[i]? = some q := by
        have := congrArg (fun t => t[0]?) hdrop
        simpa [List.getElem?_drop] using this
      rw [List.getD_eq_getElem?_getD, h0]
      rfl
    have hdrop' : l.drop (i + 1) = qs := by
      have h1 : (l.drop i).drop 1 = qs := by rw [hdrop]; rfl
      rw [List.drop_drop] at h1
      simpa [Nat.add_comm] using h1
    by_cases hlt : q < best.2
    · have heq : argminAux (q :: qs) best i = argminAux qs (i, q) (i + 1) := by
        show (if q < best.2 then argminAux qs (i, q) (i + 1)
          else argminAux qs best (i + 1)) = _
        rw [if_pos hlt]
      rw [heq]
      refine ih l (i + 1) (i, q) hdrop' (by omega) (by omega) hq ?_ ?_
      · intro u hu
        rcases Nat.lt_succ_iff_lt_or_eq.mp hu with h | h
        · exact le_of_lt (lt_of_lt_of_le hlt (hmin u h))
        · subst h
          rw [hq]
      · intro u hu
        exact lt_of_lt_of_le hlt (hmin u (by omega))
    · have heq : argminAux (q :: qs) best i = argminAux qs best (i + 1) := by
        show (if q < best.2 then argminAux qs (i, q) (i + 1)
          else argminAux qs best (i + 1)) = _
        rw [if_neg hlt]
      rw [heq]
      refine ih l (i + 1) best hdrop' (by omega) (by omega) hb2 ?_ hstrict
      intro u hu
      rcases Nat.lt_succ_iff_lt_or_eq.mp hu with h | h
      · exact hmin u h
      · subst h
        rw [hq]
        exact le_of_not_lt hlt

theorem argminIdx_spec (l : List ℚ) (hl : l ≠ []) :
    argminIdx l < l.length ∧
    (∀ i, i < l.length → l.getD (argminIdx l) 0 ≤ l.getD i 0) ∧
    (∀ i, i < argminIdx l → l.getD (argminIdx l) 0 < l.getD i 0) := by
  cases l with
  | nil => exact absurd rfl hl
  | cons q qs =>
    obtain ⟨h1, h2, h3, h4⟩ := argminAux_spec qs (q :: qs) 1 (0, q) rfl
      (by simp) (by omega) (by simp) (by intro u hu; interval_cases u; simp)
      (by intro u hu; omega)
    have hid : argminIdx (q :: qs) = (argminAux qs (0, q) 1).1 := rfl
    rw [hid]
    refine ⟨h1, ?_, ?_⟩
    · intro i hi
      rw [h2]
      exact h3 i hi
    · intro i hi
      rw [h2]
      exact h4 i hi

theorem argminIdx_eq (l : List ℚ) (p : ℕ) (hp : p < l.length)
    (hmin : ∀ i, i < l.length → l.getD p 0 ≤ l.getD i 0)
    (hstrict : ∀ i, i < p → l.getD p 0 < l.getD i 0) :
    argminIdx l = p := by
  have hne : l ≠ [] := by
    intro h
    rw [h] at hp
    simp at hp
  obtain ⟨h1, h2, h3⟩ := argminIdx_spec l hne
  rcases lt_trichotomy (argminIdx l) p with h | h | h
  · exact absurd (h2 p hp) (not_le.mpr (hstrict _ h))
  · exact h
  · exact absurd (hmin _ h1) (not_le.mpr (h3 p h))

/-- The list of the 27 integer lattice offsets, in the exact order produced by
`np.array([m.ravel() for m in np.meshgrid(*[[0, 1, 2]] * 3)]).T - 1`:
with default `indexing="xy"`, entry `(i, j, k)` of the raveled transpose is
`(j - 1, i - 1, k - 1)` with `i` outermost, so the list is ordered
lexicographically by (second, first, third) component. -/
def point_list : List (ℤ × ℤ × ℤ) :=
  [(-1, -1, -1), (-1, -1, 0), (-1, -1, 1),
   (0, -1, -1), (0, -1, 0), (0, -1, 1),
   (1, -1, -1), (1, -1, 0), (1, -1, 1),
   (-1, 0, -1), (-1, 0, 0), (-1, 0, 1),
   (0, 0, -1), (0, 0, 0), (0, 0, 1),
   (1, 0, -1), (1, 0, 0), (1, 0, 1),
   (-1, 1, -1), (-1, 1, 0), (-1, 1, 1),
   (0, 1, -1), (0, 1, 0), (0, 1, 1),
   (1, 1, -1), (1, 1, 0), (1, 1, 1)]

/-- An integer offset triple as a rational vector. -/
def intVec (n : ℤ × ℤ × ℤ) : Vec3 := ⟨(n.1 : ℚ), (n.2.1 : ℚ), (n.2.2 : ℚ)⟩

/-- The 27 candidate lattice translations `self.shifts = np.dot(self.point_list, self._latvec)`. -/
def shiftsOf (L : Mat3) : List Vec3 := point_list.map (fun n => rowMul (intVec n) L)

theorem length_shiftsOf (L : Mat3) : (shiftsOf L).length = 27 := by
  simp [shiftsOf, point_list]

/-- One (walker, particle) cell of `MinimalImageDistance.general_dist_i`:
form the 27 shifted candidates of the raw displacement `d1`, and return the
candidate whose Euclidean norm is smallest (`np.argmin` over the shift axis;
comparing squared norms selects the same index since `sqrt` is strictly
monotone). -/
def general_dist_one (L : Mat3) (d1 : Vec3) : Vec3 :=
  let cands := (shiftsOf L).map (fun s => d1 + s)
  cands.getD (argminIdx (cands.map normSq)) 0

/-- `MinimalImageDistance.general_dist_i`: `configs` has one list of particle
positions per walker, `vec` one reference position per walker; the result is
the per-walker, per-particle minimum-image displacement `vec - configs`
(up to lattice translation). -/
def general_dist_i (L : Mat3) (configs : List (List Vec3)) (vec : List Vec3) :
    List (List Vec3) :=
  List.zipWith (fun v cfg => cfg.map (fun p => general_dist_one L (v - p))) vec configs

/-- Python `q % 1`: numpy `mod` returns `q - floor(q)` for modulus 1. -/
def pymod1 (q : ℚ) : ℚ := q - (⌊q⌋ : ℚ)

/-- Componentwise wrap of a fractional coordinate into `[-1/2, 1/2)`:
`(f + 0.5) % 1 - 0.5`. -/
def wrapHalf (q : ℚ) : ℚ := pymod1 (q + 1 / 2) - 1 / 2

/-- Componentwise wrap of a fractional-coordinate vector. -/
def wrapVec (v : Vec3) : Vec3 := ⟨wrapHalf v.x, wrapHalf v.y, wrapHalf v.z⟩

/-- One (walker, particle) cell of `MinimalImageDistance.orthogonal_dist_i`:
convert the raw displacement to fractional coordinates with the inverse
lattice matrix, wrap into `[-1/2, 1/2)`, convert back. -/
def orthogonal_dist_one (L : Mat3) (d1 : Vec3) : Vec3 :=
  rowMul (wrapVec (rowMul d1 (inv3 L))) L

/-- `MinimalImageDistance.orthogonal_dist_i` over a whole ensemble. -/
def orthogonal_dist_i (L : Mat3) (configs : List (List Vec3)) (vec : List Vec3) :
    List (List Vec3) :=
  List.zipWith (fun v cfg => cfg.map (fun p => orthogonal_dist_one L (v - p))) vec configs

theorem wrapHalf_eq (q : ℚ) : wrapHalf q = q - (⌊q + 1 / 2⌋ : ℚ) := by
  unfold wrapHalf pymod1
  ring

theorem wrapHalf_lb (q : ℚ) : -(1 / 2) ≤ wrapHalf q := by
  unfold wrapHalf pymod1
  have := Int.floor_le (q + 1 / 2)
  linarith

theorem wrapHalf_ub (q : ℚ) : wrapHalf q < 1 / 2 := by
  unfold wrapHalf pymod1
  have := Int.lt_floor_add_one (q + 1 / 2)
  linarith

theorem length_map_shiftsOf (L : Mat3) (f : Vec3 → Vec3) :
    ((shiftsOf L).map f).length = 27 := by
  simp [shiftsOf, point_list]

theorem zero_mem_point_list : ((0 : ℤ), (0 : ℤ), (0 : ℤ)) ∈ point_list := by decide

theorem zero_mem_shiftsOf (L : Mat3) : (0 : Vec3) ∈ shiftsOf L := by
  have h : rowMul (intVec ((0 : ℤ), (0 : ℤ), (0 : ℤ))) L = 0 := by
    have : intVec ((0 : ℤ), (0 : ℤ), (0 : ℤ)) = 0 := by
      simp [intVec, Vec3.zero_def]
    rw [this, rowMul_zero]
  exact h ▸ List.mem_map_of_mem _ zero_mem_point_list

theorem general_dist_one_spec (L : Mat3) (d1 : Vec3) :
    (∃ s ∈ shiftsOf L, general_dist_one L d1 = d1 + s) ∧
    (∀ s ∈ shiftsOf L, normSq (general_dist_one L d1) ≤ normSq (d1 + s)) := by
  have hclen : ((shiftsOf L).map (fun s => d1 + s)).length = 27 :=
    length_map_shiftsOf L _
  have hdlen : (((shiftsOf L).map (fun s => d1 + s)).map normSq).length = 27 := by
    simpa using hclen
  have hne : ((shiftsOf L).map (fun s => d1 + s)).map normSq ≠ [] := by
    intro h
    rw [h] at hdlen
    simp at hdlen
  obtain ⟨h1, h2, _⟩ := argminIdx_spec _ hne
  set j := argminIdx (((shiftsOf L).map (fun s => d1 + s)).map normSq) with hj
  have hjlt : j < 27 := by
    rw [hdlen] at h1
    exact h1
  have hjc : j < ((shiftsOf L).map (fun s => d1 + s)).length := by omega
  have hjs : j < (shiftsOf L).length := by
    rw [length_shiftsOf]
    exact hjlt
  have hres : general_dist_one L d1 = d1 + (shiftsOf L)[j] := by
    show ((shiftsOf L).map (fun s => d1 + s)).getD
        (argminIdx (((shiftsOf L).map (fun s => d1 + s)).map normSq)) 0
      = d1 + (shiftsOf L)[j]
    rw [← hj, List.getD_eq_getElem _ _ hjc, List.getElem_map]
  have hval : ∀ (t : ℕ) (ht : t < (shiftsOf L).length),
      normSq (general_dist_one L d1) ≤ normSq (d1 + (shiftsOf L)[t]) := by
    intro t ht
    have htd : t < (((shiftsOf L).map (fun s => d1 + s)).map normSq).length := by
      rw [hdlen, length_shiftsOf] at *
      exact ht
    have := h2 t htd
    rw [List.getD_eq_getElem _ _ htd] at this
    have hjd : j < (((shiftsOf L).map (fun s => d1 + s)).map normSq).length := by
      omega
    rw [List.getD_eq_getElem _ _ hjd] at this
    simp only [List.getElem_map] at this
    rw [hres]
    exact this
  constructor
  · exact ⟨(shiftsOf L)[j], List.getElem_mem hjs, hres⟩
  · intro s hs
    obtain ⟨t, ht, hts⟩ := List.mem_iff_getElem.mp hs
    rw [← hts]
    exact hval t ht

theorem general_dist_i_elem (L : Mat3) (configs : List (List Vec3)) (vec : List Vec3)
    (c e : ℕ) (hc1 : c < vec.length) (hc2 : c < configs.length)
    (he : e < (configs.getD c []).length) :
    ((general_dist_i L configs vec).getD c []).getD e 0
      = general_dist_one L (vec.getD c 0 - (configs.getD c []).getD e 0) := by
  have hcfg : configs.getD c [] = configs[c] := List.getD_eq_getElem _ _ hc2
  have hlen : c < (general_dist_i L configs vec).length := by
    unfold general_dist_i
    rw [List.length_zipWith]
    omega
  rw [List.getD_eq_getElem _ _ hlen]
  unfold general_dist_i
  rw [List.getElem_zipWith]
  have he' : e < (configs[c].map
      (fun p => general_dist_one L (vec[c] - p))).length := by
    rw [List.length_map]
    rw [hcfg] at he
    exact he
  rw [List.getD_eq_getElem _ _ he', List.getElem_map]
  rw [List.getD_eq_getElem _ _ hc1, hcfg,
    List.getD_eq_getElem _ _ (by rw [hcfg] at he; exact he)]

/-- C1: for every periodic lattice and every input (`configs` of shape
walkers x m x 3, `vec` of shape walkers x 3), the displacement returned per
(walker, particle) by `general_dist_i` equals the raw displacement
`vec - configs` plus one of the 27 candidate lattice shifts, its Euclidean
length is at most the length of the raw displacement, and no other of the 27
candidates yields a strictly shorter length than the one returned. -/
theorem c1_general_min_image (L : Mat3) (configs : List (List Vec3)) (vec : List Vec3)
    (c e : ℕ) (hc1 : c < vec.length) (hc2 : c < configs.length)
    (he : e < (configs.getD c []).length) :
    (∃ s ∈ shiftsOf L,
      ((general_dist_i L configs vec).getD c []).getD e 0
        = (vec.getD c 0 - (configs.getD c []).getD e 0) + s) ∧
    normSq (((general_dist_i L configs vec).getD c []).getD e 0)
      ≤ normSq (vec.getD c 0 - (configs.getD c []).getD e 0) ∧
    Real.sqrt (normSq (((general_dist_i L configs vec).getD c []).getD e 0) : ℝ)
      ≤ Real.sqrt ((normSq (vec.getD c 0 - (configs.getD c []).getD e 0) : ℝ)) ∧
    ∀ s ∈ shiftsOf L,
      normSq (((general_dist_i L configs vec).getD c []).getD e 0)
        ≤ normSq ((vec.getD c 0 - (configs.getD c []).getD e 0) + s) ∧
      Real.sqrt (normSq (((general_dist_i L configs vec).getD c []).getD e 0) : ℝ)
        ≤ Real.sqrt (normSq ((vec.getD c 0 - (configs.getD c []).getD e 0) + s) : ℝ) := by
  rw [general_dist_i_elem L configs vec c e hc1 hc2 he]
  obtain ⟨hex, hmin⟩ :=
    general_dist_one_spec L (vec.getD c 0 - (configs.getD c []).getD e 0)
  have hraw : normSq (general_dist_one L (vec.getD c 0 - (configs.getD c []).getD e 0))
      ≤ normSq (vec.getD c 0 - (configs.getD c []).getD e 0) := by
    have h0 := hmin 0 (zero_mem_shiftsOf L)
    rwa [Vec3.add_zero] at h0
  refine ⟨hex, hraw, Real.sqrt_le_sqrt (by exact_mod_cast hraw), ?_⟩
  intro s hs
  exact ⟨hmin s hs, Real.sqrt_le_sqrt (by exact_mod_cast hmin s hs)⟩

/-- Witness for C1 at a concrete input: the identity lattice, one walker,
one particle. -/
theorem c1_general_min_image_witness :
    ((0 : ℕ) < [(⟨10, 0, 0⟩ : Vec3)].length ∧
     (0 : ℕ) < [[(⟨0, 0, 0⟩ : Vec3)]].length ∧
     (0 : ℕ) < ([[(⟨0, 0, 0⟩ : Vec3)]].getD 0 []).length) ∧
    (∃ s ∈ shiftsOf ⟨⟨1, 0, 0⟩, ⟨0, 1, 0⟩, ⟨0, 0, 1⟩⟩,
      ((general_dist_i ⟨⟨1, 0, 0⟩, ⟨0, 1, 0⟩, ⟨0, 0, 1⟩⟩
          [[(⟨0, 0, 0⟩ : Vec3)]] [(⟨10, 0, 0⟩ : Vec3)]).getD 0 []).getD 0 0
        = ([(⟨10, 0, 0⟩ : Vec3)].getD 0 0
            - ([[(⟨0, 0, 0⟩ : Vec3)]].getD 0 []).getD 0 0) + s) := by
  constructor
  · exact ⟨by simp, by simp, by simp⟩
  · exact (c1_general_min_image ⟨⟨1, 0, 0⟩, ⟨0, 1, 0⟩, ⟨0, 0, 1⟩⟩
      [[(⟨0, 0, 0⟩ : Vec3)]] [(⟨10, 0, 0⟩ : Vec3)] 0 0
      (by simp) (by simp) (by simp)).1

/-- Tolerance `ortho_tol = 1e-10` from `MinimalImageDistance.__init__`. -/
def ortho_tol : ℚ := 1 / 10 ^ 10

/-- The orthogonality test performed once at construction of
`MinimalImageDistance`.  As in the source, each *signed* pairwise dot product
is compared against the tolerance with `<` — there is no absolute value. -/
def orthogonalClassified (L : Mat3) : Bool :=
  decide (dotV L.a L.b < ortho_tol) && decide (dotV L.b L.c < ortho_tol)
    && decide (dotV L.c L.a < ortho_tol)

/-- The `dist_i` method bound once in `MinimalImageDistance.__init__`:
the fast modulo path when the orthogonality test passes, the 27-image search
otherwise; the binding is never changed afterwards. -/
def minimal_image_dist_i (L : Mat3) :
    List (List Vec3) → List Vec3 → List (List Vec3) :=
  if orthogonalClassified L then orthogonal_dist_i L else general_dist_i L

/-- C4 (failing input): the lattice with rows `(1,0,0)`, `(-1/2,1,0)`,
`(0,0,1)` has `a · b = -1/2`, which is NOT within `1e-10` of zero, yet the
constructor's one-sided test classifies it as orthogonal and permanently
selects the fast modulo path; on the raw displacement `(147/200, -49/100, 0)`
that path returns a strictly longer displacement than the 27-image search,
so the misclassification is observable.  The claim (classification exactly
when all pairwise dot products are within `1e-10` of zero) describes the
evident intent; the missing absolute value in the code is the bug. -/
theorem c4_orthogonality_classifier_bug :
    orthogonalClassified ⟨⟨1, 0, 0⟩, ⟨-(1/2), 1, 0⟩, ⟨0, 0, 1⟩⟩ = true ∧
    ¬ (|dotV (⟨1, 0, 0⟩ : Vec3) ⟨-(1/2), 1, 0⟩| < ortho_tol) ∧
    minimal_image_dist_i ⟨⟨1, 0, 0⟩, ⟨-(1/2), 1, 0⟩, ⟨0, 0, 1⟩⟩
      = orthogonal_dist_i ⟨⟨1, 0, 0⟩, ⟨-(1/2), 1, 0⟩, ⟨0, 0, 1⟩⟩ ∧
    normSq (general_dist_one ⟨⟨1, 0, 0⟩, ⟨-(1/2), 1, 0⟩, ⟨0, 0, 1⟩⟩
        ⟨147/200, -(49/100), 0⟩)
      < normSq (orthogonal_dist_one ⟨⟨1, 0, 0⟩, ⟨-(1/2), 1, 0⟩, ⟨0, 0, 1⟩⟩
        ⟨147/200, -(49/100), 0⟩) := by
  have hclass : orthogonalClassified ⟨⟨1, 0, 0⟩, ⟨-(1/2), 1, 0⟩, ⟨0, 0, 1⟩⟩ = true := by
    norm_num [orthogonalClassified, dotV, ortho_tol]
  refine ⟨hclass, ?_, ?_, ?_⟩
  · have h1 : dotV (⟨1, 0, 0⟩ : Vec3) ⟨-(1/2), 1, 0⟩ = -(1/2) := by norm_num [dotV]
    rw [h1]
    have h2 : |(-(1/2) : ℚ)| = 1/2 := by
      rw [abs_of_nonpos] <;> norm_num
    rw [h2]
    norm_num [ortho_tol]
  · unfold minimal_image_dist_i
    rw [hclass]
    rfl
  · have hgen : normSq (general_dist_one ⟨⟨1, 0, 0⟩, ⟨-(1/2), 1, 0⟩, ⟨0, 0, 1⟩⟩
        ⟨147/200, -(49/100), 0⟩) = 12413/40000 := by
      norm_num [general_dist_one, shiftsOf, point_list, intVec, rowMul,
        argminIdx, argminAux, normSq, dotV, Vec3.add_def]
    have horth : normSq (orthogonal_dist_one ⟨⟨1, 0, 0⟩, ⟨-(1/2), 1, 0⟩, ⟨0, 0, 1⟩⟩
        ⟨147/200, -(49/100), 0⟩) = 31213/40000 := by
      norm_num [orthogonal_dist_one, inv3, det3, rowMul, wrapVec, wrapHalf, pymod1,
        normSq, dotV]
    rw [hgen, horth]
    norm_num

/-- `RawDistance.dist_i`: open-boundary displacements `vec - configs`, the
per-walker reference position broadcast against each particle. -/
def dist_i (configs : List (List Vec3)) (vec : List Vec3) : List (List Vec3) :=
  List.zipWith (fun v cfg => cfg.map (fun p => v - p)) vec configs

/-- `RawDistance.dist_matrix`; `n` is `configs.shape[1]`, the per-walker
particle count of the rectangular numpy input array. -/
def dist_matrix (n : ℕ) (configs : List (List Vec3)) :
    List (List Vec3) × List (ℕ × ℕ) :=
  if n * (n - 1) / 2 = 0 then ([], [])
  else
    (configs.map (fun w =>
        (List.range n).flatMap (fun i => (w.drop (i + 1)).map (fun p => w.getD i 0 - p))),
     (List.range n).flatMap (fun i =>
        (List.range' (i + 1) (n - (i + 1))).map (fun j => (i, j))))

/-- The canonical pair order of the spec: `i` from `0` to `n-2`, `j` from
`i+1` to `n-1`. -/
def canonicalPairs (n : ℕ) : List (ℕ × ℕ) :=
  (List.range (n - 1)).flatMap (fun i =>
    (List.range' (i + 1) (n - (i + 1))).map (fun j => (i, j)))

theorem flatMap_congr_mem {α β : Type} (l : List α) (f g : α → List β)
    (h : ∀ a ∈ l, f a = g a) : l.flatMap f = l.flatMap g := by
  induction l with
  | nil => rfl
  | cons a l ih =>
    rw [List.flatMap_cons, List.flatMap_cons, h a (by simp), ih]
    intro a' ha'
    exact h a' (by simp [ha'])

theorem sum_range_sub_mul_two (m : ℕ) :
    ((List.range m).map (fun i => m - i)).sum * 2 = m * (m + 1) := by
  induction m with
  | zero => rfl
  | succ k ih =>
    rw [List.range_succ_eq_map]
    simp only [List.map_cons, List.map_map, List.sum_cons, Nat.sub_zero]
    have hcomp : (List.map ((fun i => k + 1 - i) ∘ Nat.succ) (List.range k)).sum
        = ((List.range k).map (fun i => k - i)).sum := by
      congr 1
      apply List.map_congr_left
      intro i hi
      simp only [Function.comp_apply]
      omega
    rw [hcomp]
    ring_nf
    ring_nf at ih
    omega

theorem ij_eq_canonicalPairs (n : ℕ) :
    (List.range n).flatMap (fun i =>
        (List.range' (i + 1) (n - (i + 1))).map (fun j => (i, j)))
      = canonicalPairs n := by
  cases n with
  | zero => rfl
  | succ m =>
    unfold canonicalPairs
    rw [show m + 1 - 1 = m by omega]
    rw [List.range_succ, List.flatMap_append]
    simp

theorem length_canonicalPairs (n : ℕ) :
    (canonicalPairs n).length = n * (n - 1) / 2 := by
  unfold canonicalPairs
  rw [List.length_flatMap]
  have h1 : List.map (List.length ∘ fun i =>
        (List.range' (i + 1) (n - (i + 1))).map (fun j => (i, j))) (List.range (n - 1))
      = (List.range (n - 1)).map (fun i => (n - 1) - i) := by
    apply List.map_congr_left
    intro i hi
    simp only [Function.comp_apply, List.length_map, List.length_range']
    omega
  rw [h1]
  have h2 := sum_range_sub_mul_two (n - 1)
  cases n with
  | zero => simp at h2 ⊢
  | succ m =>
    rw [show m + 1 - 1 = m by omega] at h2 ⊢
    have h3 : (m + 1) * m = ((List.range m).map (fun i => m - i)).sum * 2 := by
      rw [h2]
      ring
    rw [h3, Nat.mul_div_cancel _ (by norm_num)]

theorem dist_matrix_row (n : ℕ) (w : List Vec3) (hw : w.length = n) :
    (List.range n).flatMap (fun i => (w.drop (i + 1)).map (fun p => w.getD i 0 - p))
      = ((List.range n).flatMap (fun i =>
          (List.range' (i + 1) (n - (i + 1))).map (fun j => (i, j)))).map
        (fun pr => w.getD pr.1 0 - w.getD pr.2 0) := by
  rw [List.map_flatMap]
  apply flatMap_congr_mem
  intro i hi
  rw [List.mem_range] at hi
  rw [List.map_map]
  apply List.ext_getElem
  · simp only [List.length_map, List.length_drop, List.length_range', hw]
  · intro t h1 h2
    have hb2 : i + 1 + t < w.length := by
      simp only [List.length_map, List.length_drop] at h1
      omega
    simp only [List.getElem_map, List.getElem_drop, List.getElem_range',
      Function.comp_apply, one_mul]
    rw [List.getD_eq_getElem _ _ hb2]

/-- C5: for every particle count `n` and rectangular `configs` of shape
walkers x n x 3, `dist_matrix` returns the pair-index list in the canonical
order (`i` from 0 to n-2, `j` from i+1 to n-1), of length exactly
`n*(n-1)/2`; the k-th packed displacement slot of every walker is the
displacement of the k-th index pair; and for `n < 2` the result is the
explicitly empty pair `([], [])`, not an error. -/
theorem c5_dist_matrix (n : ℕ) (configs : List (List Vec3))
    (hw : ∀ w ∈ configs, w.length = n) :
    (dist_matrix n configs).2 = canonicalPairs n ∧
    (dist_matrix n configs).2.length = n * (n - 1) / 2 ∧
    (n < 2 → dist_matrix n configs = ([], [])) ∧
    (∀ c, c < configs.length →
      (dist_matrix n configs).1.getD c []
        = (dist_matrix n configs).2.map
            (fun pr => (configs.getD c []).getD pr.1 0
              - (configs.getD c []).getD pr.2 0)) := by
  by_cases hz : n * (n - 1) / 2 = 0
  · have hdm : dist_matrix n configs = ([], []) := by
      unfold dist_matrix
      rw [if_pos hz]
    have hcp : canonicalPairs n = [] := by
      have hn2 : n < 2 := by
        by_contra hge
        push_neg at hge
        have : 1 ≤ n * (n - 1) / 2 := by
          rw [Nat.le_div_iff_mul_le (by norm_num)]
          have : 2 ≤ n * (n - 1) := by
            calc 2 ≤ n := hge
            _ = n * 1 := by ring
            _ ≤ n * (n - 1) := Nat.mul_le_mul_left n (by omega)
          omega
        omega
      unfold canonicalPairs
      interval_cases n <;> rfl
    rw [hdm, hcp]
    refine ⟨rfl, by simp [hz], fun _ => rfl, fun c _ => rfl⟩
  · have hdm1 : (dist_matrix n configs).1 = configs.map (fun w =>
        (List.range n).flatMap (fun i =>
          (w.drop (i + 1)).map (fun p => w.getD i 0 - p))) := by
      unfold dist_matrix
      rw [if_neg hz]
    have hdm2 : (dist_matrix n configs).2 = (List.range n).flatMap (fun i =>
        (List.range' (i + 1) (n - (i + 1))).map (fun j => (i, j))) := by
      unfold dist_matrix
      rw [if_neg hz]
    have hn2 : ¬ n < 2 := by
      intro hlt
      interval_cases n <;> simp at hz
    refine ⟨by rw [hdm2]; exact ij_eq_canonicalPairs n, ?_, fun h => absurd h hn2, ?_⟩
    · rw [hdm2, ij_eq_canonicalPairs n]
      exact length_canonicalPairs n
    · intro c hc
      rw [hdm1, hdm2]
      have hcfg : configs.getD c [] = configs[c] := List.getD_eq_getElem _ _ hc
      have hc' : c < (configs.map (fun w =>
          (List.range n).flatMap (fun i =>
            (w.drop (i + 1)).map (fun p => w.getD i 0 - p)))).length := by
        rw [List.length_map]
        exact hc
      rw [List.getD_eq_getElem _ _ hc', List.getElem_map, hcfg]
      exact dist_matrix_row n configs[c] (hw _ (List.getElem_mem hc))

/-- Witness for C5: a concrete one-walker, three-particle configuration. -/
theorem c5_dist_matrix_witness :
    (∀ w ∈ [[(⟨0, 0, 0⟩ : Vec3), ⟨1, 0, 0⟩, ⟨0, 1, 0⟩]], w.length = 3) ∧
    (dist_matrix 3 [[(⟨0, 0, 0⟩ : Vec3), ⟨1, 0, 0⟩, ⟨0, 1, 0⟩]]).2 = canonicalPairs 3 := by
  have hw : ∀ w ∈ [[(⟨0, 0, 0⟩ : Vec3), ⟨1, 0, 0⟩, ⟨0, 1, 0⟩]], w.length = 3 := by
    intro w hmem
    rw [List.mem_singleton] at hmem
    subst hmem
    rfl
  exact ⟨hw, (c5_dist_matrix 3 _ hw).1⟩

/-- `RawDistance.pairwise`; `n1`, `n2` are `config1.shape[1]` and
`config2.shape[1]`.  For each particle `i` of `config2` (outer loop) the
displacements to every particle of `config1` are appended, and the index list
records the tuples `(i, j)` with `i` the `config2` index. -/
def pairwise (n1 n2 : ℕ) (config1 config2 : List (List Vec3)) :
    List (List Vec3) × List (ℕ × ℕ) :=
  if n1 = 0 ∨ n2 = 0 then ([], [])
  else
    (List.zipWith (fun w1 w2 =>
        (List.range n2).flatMap (fun i => w1.map (fun p => w2.getD i 0 - p)))
      config1 config2,
     (List.range n2).flatMap (fun i => (List.range n1).map (fun j => (i, j))))

/-- C6 (counterexample): for a 1-particle set A (`config1`) and a 3-particle
set B (`config2`) over 2 walkers, the index list produced by `pairwise` is
`[(0,0), (1,0), (2,0)]` — the B-particle index comes first — so it does NOT
cover `(0,1)` (nor `(0,2)`); the claim's "covering all (0,j) for j in
{0,1,2}" is false as stated. -/
theorem c6_pairwise_counterexample :
    (pairwise 1 3 [[(⟨0, 0, 0⟩ : Vec3)], [⟨1, 1, 1⟩]]
        [[(⟨1, 0, 0⟩ : Vec3), ⟨0, 2, 0⟩, ⟨0, 0, 3⟩],
         [⟨2, 0, 0⟩, ⟨0, 4, 0⟩, ⟨0, 0, 6⟩]]).2
      = [(0, 0), (1, 0), (2, 0)] ∧
    ((0, 1) : ℕ × ℕ) ∉ (pairwise 1 3 [[(⟨0, 0, 0⟩ : Vec3)], [⟨1, 1, 1⟩]]
        [[(⟨1, 0, 0⟩ : Vec3), ⟨0, 2, 0⟩, ⟨0, 0, 3⟩],
         [⟨2, 0, 0⟩, ⟨0, 4, 0⟩, ⟨0, 0, 6⟩]]).2 := by
  constructor
  · rfl
  · intro hmem
    simp only [show (pairwise 1 3 [[(⟨0, 0, 0⟩ : Vec3)], [⟨1, 1, 1⟩]]
        [[(⟨1, 0, 0⟩ : Vec3), ⟨0, 2, 0⟩, ⟨0, 0, 3⟩],
         [⟨2, 0, 0⟩, ⟨0, 4, 0⟩, ⟨0, 0, 6⟩]]).2
      = [(0, 0), (1, 0), (2, 0)] from rfl] at hmem
    simp at hmem

/-- C6 (amended): `pairwise` between a 1-particle configuration set A and a
3-particle configuration set B over 2 walkers returns a displacement array of
shape (2 walkers, 3 pairs, 3 spatial components) and an index list of exactly
the 3 tuples `(i, 0)` for `i` in {0,1,2} — B-particle index first — flattened
in row-major order over (particle-in-B, particle-in-A). -/
theorem c6_pairwise_amended (config1 config2 : List (List Vec3))
    (h1 : config1.length = 2) (h2 : config2.length = 2)
    (hw1 : ∀ w ∈ config1, w.length = 1) (hw2 : ∀ w ∈ config2, w.length = 3) :
    (pairwise 1 3 config1 config2).1.length = 2 ∧
    (∀ row ∈ (pairwise 1 3 config1 config2).1, row.length = 3) ∧
    (pairwise 1 3 config1 config2).2 = [(0, 0), (1, 0), (2, 0)] := by
  have hne : ¬ ((1 : ℕ) = 0 ∨ (3 : ℕ) = 0) := by norm_num
  have hp1 : (pairwise 1 3 config1 config2).1
      = List.zipWith (fun w1 w2 =>
          (List.range 3).flatMap (fun i => w1.map (fun p => w2.getD i 0 - p)))
        config1 config2 := by
    unfold pairwise
    rw [if_neg hne]
  have hp2 : (pairwise 1 3 config1 config2).2
      = (List.range 3).flatMap (fun i => (List.range 1).map (fun j => (i, j))) := by
    unfold pairwise
    rw [if_neg hne]
  refine ⟨?_, ?_, ?_⟩
  · rw [hp1, List.length_zipWith, h1, h2]
    rfl
  · intro row hrow
    rw [hp1] at hrow
    obtain ⟨k, hk, hrk⟩ := List.mem_iff_getElem.mp hrow
    rw [List.getElem_zipWith] at hrk
    have hk1 : k < config1.length := by
      rw [List.length_zipWith] at hk
      omega
    have hlen1 : config1[k].length = 1 := hw1 _ (List.getElem_mem hk1)
    rw [← hrk, List.length_flatMap]
    have : List.map (List.length ∘ fun i =>
          config1[k].map (fun p => config2[k].getD i 0 - p)) (List.range 3)
        = List.map (fun _ => 1) (List.range 3) := by
      apply List.map_congr_left
      intro i _
      simp [hlen1]
    rw [this]
    rfl
  · rw [hp2]
    rfl

/-- Witness for the amended C6 at a concrete input. -/
theorem c6_pairwise_amended_witness :
    ([[(⟨0, 0, 0⟩ : Vec3)], [⟨1, 1, 1⟩]].length = 2 ∧
     [[(⟨1, 0, 0⟩ : Vec3), ⟨0, 2, 0⟩, ⟨0, 0, 3⟩],
      [⟨2, 0, 0⟩, ⟨0, 4, 0⟩, ⟨0, 0, 6⟩]].length = 2) ∧
    (pairwise 1 3 [[(⟨0, 0, 0⟩ : Vec3)], [⟨1, 1, 1⟩]]
        [[(⟨1, 0, 0⟩ : Vec3), ⟨0, 2, 0⟩, ⟨0, 0, 3⟩],
         [⟨2, 0, 0⟩, ⟨0, 4, 0⟩, ⟨0, 0, 6⟩]]).1.length = 2 := by
  have hw1 : ∀ w ∈ [[(⟨0, 0, 0⟩ : Vec3)], [⟨1, 1, 1⟩]], w.length = 1 := by
    intro w hw
    simp only [List.mem_cons, List.not_mem_nil, or_false] at hw
    rcases hw with h | h <;> subst h <;> rfl
  have hw2 : ∀ w ∈ [[(⟨1, 0, 0⟩ : Vec3), ⟨0, 2, 0⟩, ⟨0, 0, 3⟩],
      [⟨2, 0, 0⟩, ⟨0, 4, 0⟩, ⟨0, 0, 6⟩]], w.length = 3 := by
    intro w hw
    simp only [List.mem_cons, List.not_mem_nil, or_false] at hw
    rcases hw with h | h <;> subst h <;> rfl
  exact ⟨⟨rfl, rfl⟩,
    (c6_pairwise_amended [[(⟨0, 0, 0⟩ : Vec3)], [⟨1, 1, 1⟩]]
      [[(⟨1, 0, 0⟩ : Vec3), ⟨0, 2, 0⟩, ⟨0, 0, 3⟩],
       [⟨2, 0, 0⟩, ⟨0, 4, 0⟩, ⟨0, 0, 6⟩]] rfl rfl hw1 hw2).1⟩

/-- Record of one `wf.updateinternals(e, epos, mask)` notification made by the
VMC driver to the external wavefunction. -/
structure WFCall where
  e : ℕ
  epos : List Vec3
  mask : List Bool
deriving Repr

/-- numpy `np.mean` of a rational list (`sum / len`; on the empty list numpy
emits a warning and returns `nan` without raising, the ℚ embedding returns `0`
by the division-by-zero convention — in neither case an arithmetic failure). -/
def listMeanQ (l : List ℚ) : ℚ := l.sum / (l.length : ℚ)

/-- numpy `np.mean` of a boolean mask: fraction of `true` entries. -/
def meanBool (l : List Bool) : ℚ := ((l.countP id : ℕ) : ℚ) / (l.length : ℚ)

/-- One particle update of the VMC inner loop (`mc.py` lines 70-75) for
particle `e`: propose `coords[:, e, :] + gauss` (the Gaussian draws of scale
`tstep` are the entries of `gauss`), accept a walker exactly when the squared
`testvalue` ratio exceeds that walker's uniform draw, commit accepted rows of
column `e`, and record the `updateinternals(e, coords[:, e, :], accept)`
notification made with the post-commit column.  `tv` is the external
wavefunction's `testvalue` contract. -/
def vmcMoveE (tv : ℕ → List Vec3 → List ℚ) (gauss : List Vec3) (unif : List ℚ)
    (e : ℕ) (coords : List (List Vec3)) :
    List (List Vec3) × List Bool × WFCall :=
  let newcoorde := List.zipWith (fun w g => w.getD e 0 + g) coords gauss
  let ratio := tv e newcoorde
  let accept := (List.range coords.length).map
    (fun c => decide ((ratio.getD c 0) ^ 2 > unif.getD c 0))
  let coords' := (List.range coords.length).map
    (fun c => if accept.getD c false
      then (coords.getD c []).set e (newcoorde.getD c 0)
      else coords.getD c [])
  (coords', accept, ⟨e, coords'.map (fun w => w.getD e 0), accept⟩)

/-- One VMC step (`mc.py` lines 69-75): the particle loop `for e in
range(nelec)` folded in increasing particle order, threading the mutated
ensemble and collecting the `updateinternals` notifications and the per-
particle acceptance fractions. -/
def vmcStep (tv : ℕ → List Vec3 → List ℚ) (gauss : ℕ → List Vec3)
    (unif : ℕ → List ℚ) (nelec : ℕ) (coords : List (List Vec3)) :
    List (List Vec3) × List WFCall × List ℚ :=
  (List.range nelec).foldl
    (fun st e =>
      let r := vmcMoveE tv (gauss e) (unif e) e st.1
      (r.1, st.2.1 ++ [r.2.2], st.2.2 ++ [meanBool r.2.1]))
    (coords, [], [])

/-- The VMC driver loop (`mc.py` `vmc`): `nsteps` steps over the ensemble;
each step's record holds the walker-averaged accumulator output and the mean
of the per-particle acceptance fractions ('acceptance').  `accum` is the
external accumulator contract (a per-walker array of values). -/
def vmc (nelec nsteps : ℕ) (tv : ℕ → List Vec3 → List ℚ)
    (gauss : ℕ → ℕ → List Vec3) (unif : ℕ → ℕ → List ℚ)
    (accum : List (List Vec3) → List ℚ)
    (coords : List (List Vec3)) : List (List Vec3) × List (ℚ × ℚ) :=
  (List.range nsteps).foldl
    (fun st step =>
      let r := vmcStep tv (gauss step) (unif step) nelec st.1
      (r.1, st.2 ++ [(listMeanQ (accum r.1), listMeanQ r.2.2)]))
    (coords, [])

theorem vmcStep_fold_calls (tv : ℕ → List Vec3 → List ℚ) (gauss : ℕ → List Vec3)
    (unif : ℕ → List ℚ) (l : List ℕ) :
    ∀ (cds : List (List Vec3)) (calls : List WFCall) (accs : List ℚ),
    ((l.foldl (fun st e =>
        let r := vmcMoveE tv (gauss e) (unif e) e st.1
        (r.1, st.2.1 ++ [r.2.2], st.2.2 ++ [meanBool r.2.1]))
      (cds, calls, accs)).2.1).map (fun cl => cl.e)
      = calls.map (fun cl => cl.e) ++ l := by
  induction l with
  | nil => intro cds calls accs; simp [List.foldl_nil]
  | cons a l ih =>
    intro cds calls accs
    rw [List.foldl_cons]
    rw [ih]
    simp [vmcMoveE]

/-- In a full VMC step the wavefunction is notified once per particle, for the
particle indices `0, 1, ..., nelec-1` in increasing order. -/
theorem vmcStep_calls_in_order (tv : ℕ → List Vec3 → List ℚ)
    (gauss : ℕ → List Vec3) (unif : ℕ → List ℚ) (nelec : ℕ)
    (coords : List (List Vec3)) :
    ((vmcStep tv gauss unif nelec coords).2.1).map (fun cl => cl.e)
      = List.range nelec := by
  unfold vmcStep
  rw [vmcStep_fold_calls]
  simp

theorem getD_set_eq (w : List Vec3) (e : ℕ) (hlt : e < w.length) (v : Vec3) :
    (w.set e v).getD e 0 = v := by
  have h : e < (w.set e v).length := by simpa using hlt
  rw [List.getD_eq_getElem _ _ h, List.getElem_set]
  simp

theorem getD_set_ne (w : List Vec3) (e p : ℕ) (hne : p ≠ e) (v : Vec3) :
    (w.set e v).getD p 0 = w.getD p 0 := by
  by_cases hp : p < w.length
  · have h : p < (w.set e v).length := by simpa using hp
    rw [List.getD_eq_getElem _ _ h, List.getD_eq_getElem _ _ hp, List.getElem_set]
    simp [Ne.symm hne]
  · rw [List.getD_eq_getElem?_getD, List.getD_eq_getElem?_getD,
      List.getElem?_eq_none (by simpa using not_lt.mp hp),
      List.getElem?_eq_none (by simpa using not_lt.mp hp)]

theorem vmcMoveE_accept_getD (tv : ℕ → List Vec3 → List ℚ) (gauss : List Vec3)
    (unif : List ℚ) (e : ℕ) (coords : List (List Vec3)) (c : ℕ)
    (hc : c < coords.length) :
    (vmcMoveE tv gauss unif e coords).2.1.getD c false
      = decide ((tv e (List.zipWith (fun w g => w.getD e 0 + g) coords gauss)).getD c 0 ^ 2
          > unif.getD c 0) := by
  have hacc : (vmcMoveE tv gauss unif e coords).2.1
      = (List.range coords.length).map
        (fun c => decide ((tv e (List.zipWith (fun w g => w.getD e 0 + g) coords gauss)).getD c 0 ^ 2
          > unif.getD c 0)) := rfl
  rw [hacc]
  have hlen : c < ((List.range coords.length).map
      (fun c => decide ((tv e (List.zipWith (fun w g => w.getD e 0 + g) coords gauss)).getD c 0 ^ 2
        > unif.getD c 0))).length := by
    simpa using hc
  rw [List.getD_eq_getElem _ _ hlen, List.getElem_map, List.getElem_range]

theorem vmcMoveE_coords_getD (tv : ℕ → List Vec3 → List ℚ) (gauss : List Vec3)
    (unif : List ℚ) (e : ℕ) (coords : List (List Vec3)) (c : ℕ)
    (hc : c < coords.length) :
    (vmcMoveE tv gauss unif e coords).1.getD c []
      = (if (vmcMoveE tv gauss unif e coords).2.1.getD c false
         then (coords.getD c []).set e
            ((List.zipWith (fun w g => w.getD e 0 + g) coords gauss).getD c 0)
         else coords.getD c []) := by
  have hco : (vmcMoveE tv gauss unif e coords).1
      = (List.range coords.length).map
        (fun c => if (vmcMoveE tv gauss unif e coords).2.1.getD c false
          then (coords.getD c []).set e
            ((List.zipWith (fun w g => w.getD e 0 + g) coords gauss).getD c 0)
          else coords.getD c []) := rfl
  rw [hco]
  have hlen : c < ((List.range coords.length).map
      (fun c => if (vmcMoveE tv gauss unif e coords).2.1.getD c false
        then (coords.getD c []).set e
          ((List.zipWith (fun w g => w.getD e 0 + g) coords gauss).getD c 0)
        else coords.getD c [])).length := by
    simpa using hc
  rw [List.getD_eq_getElem _ _ hlen, List.getElem_map, List.getElem_range]

/-- C2: in every VMC step, for each particle index `e` (taken in increasing
order, last conjunct) and every walker `c` independently: the move to the
proposed position (current position plus the Gaussian draw) is accepted
exactly when the squared `testvalue` ratio exceeds that walker's uniform draw
in `[0,1)`; accepted walkers' particle-`e` positions become the proposed
positions while rejected walkers' are unchanged; all particles other than `e`
are unchanged; and the wavefunction is notified via `updateinternals` with
the particle index, the post-commit column `e` and the acceptance mask. -/
theorem c2_vmc_metropolis_update (tv : ℕ → List Vec3 → List ℚ)
    (gauss : List Vec3) (unif : List ℚ) (e : ℕ) (coords : List (List Vec3))
    (hg : gauss.length = coords.length)
    (he : ∀ w ∈ coords, e < w.length) :
    (∀ c, c < coords.length →
      ((vmcMoveE tv gauss unif e coords).2.1.getD c false = true
        ↔ (tv e (List.zipWith (fun w g => w.getD e 0 + g) coords gauss)).getD c 0 ^ 2
            > unif.getD c 0)) ∧
    (∀ c, c < coords.length →
      ((vmcMoveE tv gauss unif e coords).1.getD c []).getD e 0
        = (if (vmcMoveE tv gauss unif e coords).2.1.getD c false
           then (coords.getD c []).getD e 0 + gauss.getD c 0
           else (coords.getD c []).getD e 0)) ∧
    (∀ c, c < coords.length → ∀ p, p ≠ e →
      ((vmcMoveE tv gauss unif e coords).1.getD c []).getD p 0
        = (coords.getD c []).getD p 0) ∧
    (vmcMoveE tv gauss unif e coords).1.length = coords.length ∧
    ((vmcMoveE tv gauss unif e coords).2.2
      = ⟨e, (vmcMoveE tv gauss unif e coords).1.map (fun w => w.getD e 0),
          (vmcMoveE tv gauss unif e coords).2.1⟩) ∧
    (∀ (n : ℕ) (g' : ℕ → List Vec3) (u' : ℕ → List ℚ) (cds : List (List Vec3)),
      ((vmcStep tv g' u' n cds).2.1).map (fun cl => cl.e) = List.range n) := by
  have hzip : ∀ c, c < coords.length →
      (List.zipWith (fun w g => w.getD e 0 + g) coords gauss).getD c 0
        = (coords.getD c []).getD e 0 + gauss.getD c 0 := by
    intro c hc
    have hcz : c < (List.zipWith (fun w g => w.getD e 0 + g) coords gauss).length := by
      rw [List.length_zipWith, hg]
      simpa using hc
    rw [List.getD_eq_getElem _ _ hcz, List.getElem_zipWith,
      List.getD_eq_getElem _ _ hc, List.getD_eq_getElem _ _ (by omega : c < gauss.length)]
  refine ⟨?_, ?_, ?_, ?_, rfl, ?_⟩
  · intro c hc
    rw [vmcMoveE_accept_getD tv gauss unif e coords c hc]
    exact decide_eq_true_iff
  · intro c hc
    rw [vmcMoveE_coords_getD tv gauss unif e coords c hc]
    have hew : e < (coords.getD c []).length := by
      rw [List.getD_eq_getElem _ _ hc]
      exact he _ (List.getElem_mem hc)
    by_cases hacc : (vmcMoveE tv gauss unif e coords).2.1.getD c false
    · rw [if_pos hacc, if_pos hacc, getD_set_eq _ _ hew, hzip c hc]
    · rw [if_neg hacc, if_neg hacc]
  · intro c hc p hp
    rw [vmcMoveE_coords_getD tv gauss unif e coords c hc]
    by_cases hacc : (vmcMoveE tv gauss unif e coords).2.1.getD c false
    · rw [if_pos hacc, getD_set_ne _ _ _ hp]
    · rw [if_neg hacc]
  · have : (vmcMoveE tv gauss unif e coords).1
        = (List.range coords.length).map
          (fun c => if (vmcMoveE tv gauss unif e coords).2.1.getD c false
            then (coords.getD c []).set e
              ((List.zipWith (fun w g => w.getD e 0 + g) coords gauss).getD c 0)
            else coords.getD c []) := rfl
    rw [this]
    simp
  · intro n g' u' cds
    exact vmcStep_calls_in_order tv g' u' n cds

/-- Witness for C2: one walker with two particles, an always-accepting ratio. -/
theorem c2_vmc_metropolis_update_witness :
    ([(⟨1, 1, 1⟩ : Vec3)].length = [[(⟨0, 0, 0⟩ : Vec3), ⟨1, 0, 0⟩]].length ∧
     (∀ w ∈ [[(⟨0, 0, 0⟩ : Vec3), ⟨1, 0, 0⟩]], 0 < w.length)) ∧
    (vmcMoveE (fun _ _ => [2]) [⟨1, 1, 1⟩] [1/2] 0
        [[(⟨0, 0, 0⟩ : Vec3), ⟨1, 0, 0⟩]]).1.length
      = [[(⟨0, 0, 0⟩ : Vec3), ⟨1, 0, 0⟩]].length := by
  have hg : [(⟨1, 1, 1⟩ : Vec3)].length = [[(⟨0, 0, 0⟩ : Vec3), ⟨1, 0, 0⟩]].length := rfl
  have he : ∀ w ∈ [[(⟨0, 0, 0⟩ : Vec3), ⟨1, 0, 0⟩]], 0 < w.length := by
    intro w hw
    rw [List.mem_singleton] at hw
    subst hw
    simp
  exact ⟨⟨hg, he⟩,
    (c2_vmc_metropolis_update (fun _ _ => [2]) [⟨1, 1, 1⟩] [1/2] 0
      [[(⟨0, 0, 0⟩ : Vec3), ⟨1, 0, 0⟩]] hg he).2.2.2.1⟩

theorem vmcStep_coords_nil (tv : ℕ → List Vec3 → List ℚ) (g : ℕ → List Vec3)
    (u : ℕ → List ℚ) (n : ℕ) : (vmcStep tv g u n []).1 = [] := by
  unfold vmcStep
  suffices h : ∀ (l : List ℕ) (calls : List WFCall) (accs : List ℚ),
      ((l.foldl (fun st e =>
          let r := vmcMoveE tv (g e) (u e) e st.1
          (r.1, st.2.1 ++ [r.2.2], st.2.2 ++ [meanBool r.2.1]))
        ([], calls, accs)).1) = [] by
    exact h (List.range n) [] []
  intro l
  induction l with
  | nil => intro calls accs; rfl
  | cons a l ih =>
    intro calls accs
    rw [List.foldl_cons]
    exact ih _ _

theorem vmcStep_nelec_zero (tv : ℕ → List Vec3 → List ℚ) (g : ℕ → List Vec3)
    (u : ℕ → List ℚ) (cds : List (List Vec3)) :
    vmcStep tv g u 0 cds = (cds, [], []) := rfl

theorem vmc_records_length_aux (nelec : ℕ) (tv : ℕ → List Vec3 → List ℚ)
    (gauss : ℕ → ℕ → List Vec3) (unif : ℕ → ℕ → List ℚ)
    (accum : List (List Vec3) → List ℚ) (l : List ℕ) :
    ∀ st : List (List Vec3) × List (ℚ × ℚ),
    ((l.foldl (fun st step =>
        let r := vmcStep tv (gauss step) (unif step) nelec st.1
        (r.1, st.2 ++ [(listMeanQ (accum r.1), listMeanQ r.2.2)])) st).2).length
      = st.2.length + l.length := by
  induction l with
  | nil => intro st; simp
  | cons a l ih =>
    intro st
    rw [List.foldl_cons, ih]
    simp
    omega

theorem vmc_coords_nil_aux (nelec : ℕ) (tv : ℕ → List Vec3 → List ℚ)
    (gauss : ℕ → ℕ → List Vec3) (unif : ℕ → ℕ → List ℚ)
    (accum : List (List Vec3) → List ℚ) (l : List ℕ) :
    ∀ recs : List (ℚ × ℚ),
    ((l.foldl (fun st step =>
        let r := vmcStep tv (gauss step) (unif step) nelec st.1
        (r.1, st.2 ++ [(listMeanQ (accum r.1), listMeanQ r.2.2)])) ([], recs)).1) = [] := by
  induction l with
  | nil => intro recs; rfl
  | cons a l ih =>
    intro recs
    rw [List.foldl_cons]
    have hnil := vmcStep_coords_nil tv (gauss a) (unif a) nelec
    simp only [hnil]
    exact ih _

theorem vmc_coords_zero_aux (tv : ℕ → List Vec3 → List ℚ)
    (gauss : ℕ → ℕ → List Vec3) (unif : ℕ → ℕ → List ℚ)
    (accum : List (List Vec3) → List ℚ) (l : List ℕ) :
    ∀ st : List (List Vec3) × List (ℚ × ℚ),
    ((l.foldl (fun st step =>
        let r := vmcStep tv (gauss step) (unif step) 0 st.1
        (r.1, st.2 ++ [(listMeanQ (accum r.1), listMeanQ r.2.2)])) st).1) = st.1 := by
  induction l with
  | nil => intro st; rfl
  | cons a l ih =>
    intro st
    rw [List.foldl_cons]
    exact ih _

/-- C9: running the VMC driver on an ensemble with zero walkers, or on a
system with zero particles, is a no-op on the ensemble and still completes,
returning one output record per step (`nsteps` records) with no arithmetic
failure (the empty-mean `nan` of numpy is the harmless division-by-zero `0`
of the ℚ embedding; neither raises). -/
theorem c9_vmc_degenerate (nelec nsteps : ℕ) (tv : ℕ → List Vec3 → List ℚ)
    (gauss : ℕ → ℕ → List Vec3) (unif : ℕ → ℕ → List ℚ)
    (accum : List (List Vec3) → List ℚ) (coords : List (List Vec3))
    (h : coords = [] ∨ nelec = 0) :
    (vmc nelec nsteps tv gauss unif accum coords).1 = coords ∧
    (vmc nelec nsteps tv gauss unif accum coords).2.length = nsteps := by
  constructor
  · rcases h with h | h
    · subst h
      exact vmc_coords_nil_aux nelec tv gauss unif accum (List.range nsteps) []
    · subst h
      exact vmc_coords_zero_aux tv gauss unif accum (List.range nsteps) (coords, [])
  · have := vmc_records_length_aux nelec tv gauss unif accum (List.range nsteps)
      (coords, [])
    unfold vmc
    rw [this]
    simp

/-- Witness for C9: zero walkers, three particles, two steps. -/
theorem c9_vmc_degenerate_witness :
    (([] : List (List Vec3)) = [] ∨ (3 : ℕ) = 0) ∧
    (vmc 3 2 (fun _ _ => []) (fun _ _ => []) (fun _ _ => []) (fun _ => []) []).1 = [] ∧
    (vmc 3 2 (fun _ _ => []) (fun _ _ => []) (fun _ _ => []) (fun _ => []) []).2.length = 2 :=
  ⟨Or.inl rfl,
   c9_vmc_degenerate 3 2 (fun _ _ => []) (fun _ _ => []) (fun _ _ => [])
     (fun _ => []) [] (Or.inl rfl)⟩

/-- The electron-index selection of `OBDMAccumulator.__init__` (obdm.py lines
37-51) as a total function: the `assert` on the dimensionality of `orb_coeff`
and the spin-selector dispatch either yield the selected particle indices or
fail before any accumulator state has been created (every `self.*` assignment
of the constructor comes after these lines, so the failing path performs no
state change).  `orbDims` is `len(orb_coeff.shape)`; `nelec` is `mol.nelec`. -/
def obdm_select_electrons (orbDims : ℕ) (nelec : ℕ × ℕ) (spin : Option ℤ)
    (electrons : Option (List ℕ)) : Except String (List ℕ) :=
  if orbDims ≠ 2 then .error "orb_coeff should be a list of orbital coefficients."
  else
    match spin with
    | some s =>
        if s = 0 then .ok (List.range nelec.1)
        else if s = 1 then .ok ((List.range nelec.2).map (fun i => nelec.1 + i))
        else .error "Spin not equal to 0 or 1"
    | none =>
        match electrons with
        | some es => .ok es
        | none => .ok (List.range (nelec.1 + nelec.2))

/-- C8: `OBDMAccumulator` construction with an explicit spin selector raises
(fails fast with a `ValueError`, no silent fallback) for any spin other than
the channels 0 and 1; spin 0 selects exactly the channel-0 indices
`0..nelec[0]-1` and spin 1 exactly the channel-1 indices
`nelec[0]..nelec[0]+nelec[1]-1`; the failing path returns the error with no
state created. -/
theorem c8_obdm_spin_selection (nelec : ℕ × ℕ) (electrons : Option (List ℕ))
    (s : ℤ) (hs0 : s ≠ 0) (hs1 : s ≠ 1) :
    obdm_select_electrons 2 nelec (some 0) electrons
      = .ok (List.range nelec.1) ∧
    obdm_select_electrons 2 nelec (some 1) electrons
      = .ok (List.range' nelec.1 nelec.2) ∧
    obdm_select_electrons 2 nelec (some s) electrons
      = .error "Spin not equal to 0 or 1" := by
  refine ⟨rfl, ?_, ?_⟩
  · show Except.ok ((List.range nelec.2).map (fun i => nelec.1 + i))
      = Except.ok (List.range' nelec.1 nelec.2)
    rw [List.range'_eq_map_range]
  · unfold obdm_select_electrons
    rw [if_neg (by norm_num)]
    show (if s = 0 then _ else if s = 1 then _ else
      Except.error "Spin not equal to 0 or 1") = _
    rw [if_neg hs0, if_neg hs1]

/-- Witness for C8 at spin `5` and `nelec = (2, 3)`. -/
theorem c8_obdm_spin_selection_witness :
    ((5 : ℤ) ≠ 0 ∧ (5 : ℤ) ≠ 1) ∧
    obdm_select_electrons 2 (2, 3) (some 5) none
      = .error "Spin not equal to 0 or 1" :=
  ⟨⟨by decide, by decide⟩,
   (c8_obdm_spin_selection (2, 3) none 5 (by decide) (by decide)).2.2⟩

theorem sum_map_div {α : Type} (l : List α) (f : α → ℚ) (b : ℚ) :
    (l.map (fun a => f a / b)).sum = (l.map f).sum / b := by
  induction l with
  | nil => simp
  | cons a l ih =>
    simp only [List.map_cons, List.sum_cons, ih]
    ring

theorem sum_map_sub {α : Type} (l : List α) (f g : α → ℚ) :
    (l.map (fun a => f a - g a)).sum = (l.map f).sum - (l.map g).sum := by
  induction l with
  | nil => simp
  | cons a l ih =>
    simp only [List.map_cons, List.sum_cons, ih]
    ring

theorem sum_map_mul_left {α : Type} (l : List α) (c : ℚ) (f : α → ℚ) :
    (l.map (fun a => c * f a)).sum = c * (l.map f).sum := by
  induction l with
  | nil => simp
  | cons a l ih =>
    simp only [List.map_cons, List.sum_cons, ih]
    ring

theorem map_getD_range {α : Type} (l : List α) (d : α) :
    (List.range l.length).map (fun k => l.getD k d) = l := by
  apply List.ext_getElem
  · simp
  · intro n h1 h2
    simp only [List.getElem_map, List.getElem_range]
    exact List.getD_eq_getElem _ _ h2

/-- The external molecule contract consumed by `initial_guess`: per-spin
particle counts `mol.nelec`, `mol.atom_charges()` and `mol.atom_coords()`. -/
structure Mol where
  nelec0 : ℕ
  nelec1 : ℕ
  charges : List ℚ
  coords : List Vec3

/-- `wts = mol.atom_charges(); wts = wts / sum(wts)`. -/
def wts (mol : Mol) : List ℚ := mol.charges.map (fun q => q / mol.charges.sum)

/-- `neach = np.floor(mol.nelec[s] * wts)` (as the nonnegative integer counts
it is used as). -/
def neach (mol : Mol) (ns : ℕ) : List ℕ :=
  (wts mol).map (fun w => (⌊(ns : ℚ) * w⌋).toNat)

/-- `nleft = mol.nelec[s] * wts - neach`, elementwise over atoms. -/
def nleft (mol : Mol) (ns : ℕ) : List ℚ :=
  (wts mol).map (fun w => (ns : ℚ) * w - (((⌊(ns : ℚ) * w⌋).toNat : ℕ) : ℚ))

/-- `tot = int(np.sum(nleft))` / `totleft = int(nelec[s] - nassigned)`:
the number of leftover particles of the spin channel (`int` truncation of the
exact nonnegative rational sum). -/
def totLeft (mol : Mol) (ns : ℕ) : ℕ := (⌊(nleft mol ns).sum⌋).toNat

/-- `for i in gets: neach[i] += 1`: the per-walker top-up of the floor
assignment by the drawn atom indices. -/
def topUp (base : List ℕ) (gets : List ℕ) : List ℕ :=
  gets.foldl (fun acc i => acc.set i (acc.getD i 0 + 1)) base

/-- `np.repeat` expansion: atom index `k` repeated `counts[k]` times in atom
order (`for n, coord in zip(neach, mol.atom_coords()): for i in range(int(n))`). -/
def replicateAtoms (counts : List ℕ) : List ℕ :=
  (List.range counts.length).flatMap (fun k => List.replicate (counts.getD k 0) k)

theorem length_replicateAtoms (counts : List ℕ) :
    (replicateAtoms counts).length = counts.sum := by
  unfold replicateAtoms
  rw [List.length_flatMap]
  have h : List.map (List.length ∘ fun k => List.replicate (counts.getD k 0) k)
        (List.range counts.length)
      = (List.range counts.length).map (fun k => counts.getD k 0) := by
    apply List.map_congr_left
    intro k _
    simp
  rw [h, map_getD_range]

theorem mem_replicateAtoms (counts : List ℕ) (k : ℕ) (hk : k ∈ replicateAtoms counts) :
    k < counts.length := by
  unfold replicateAtoms at hk
  rw [List.mem_flatMap] at hk
  obtain ⟨k0, hk0, hkrep⟩ := hk
  rw [List.mem_replicate] at hkrep
  rw [hkrep.2]
  exact List.mem_range.mp hk0

theorem length_topUp (base : List ℕ) (gets : List ℕ) :
    (topUp base gets).length = base.length := by
  unfold topUp
  induction gets generalizing base with
  | nil => rfl
  | cons i gets ih =>
    rw [List.foldl_cons, ih, List.length_set]

theorem sum_set_succ (l : List ℕ) (i : ℕ) (hi : i < l.length) :
    (l.set i (l.getD i 0 + 1)).sum = l.sum + 1 := by
  rw [List.sum_set]
  have hdrop := List.drop_eq_getElem_cons hi
  have hsum1 : l.sum = (l.take i).sum + (l.drop i).sum := (List.sum_take_add_sum_drop l i).symm
  have hsum2 : (l.drop i).sum = l[i] + (l.drop (i + 1)).sum := by
    conv_lhs => rw [hdrop]
    rw [List.sum_cons]
  rw [if_pos hi, List.getD_eq_getElem _ _ hi]
  omega

theorem sum_topUp (base : List ℕ) (gets : List ℕ)
    (hmem : ∀ i ∈ gets, i < base.length) :
    (topUp base gets).sum = base.sum + gets.length := by
  unfold topUp
  induction gets generalizing base with
  | nil => simp
  | cons i gets ih =>
    rw [List.foldl_cons]
    have hi : i < base.length := hmem i (by simp)
    have := ih (base.set i (base.getD i 0 + 1)) (by
      intro j hj
      rw [List.length_set]
      exact hmem j (by simp [hj]))
    rw [this, sum_set_succ base i hi]
    simp
    omega

theorem sum_wts (mol : Mol) (hsum : mol.charges.sum ≠ 0) : (wts mol).sum = 1 := by
  unfold wts
  rw [sum_map_div]
  have : (mol.charges.map (fun q => q)).sum = mol.charges.sum := by simp
  rw [this]
  exact div_self hsum

theorem wts_nonneg (mol : Mol) (hq : ∀ q ∈ mol.charges, 0 ≤ q)
    (hsum : 0 < mol.charges.sum) : ∀ w ∈ wts mol, 0 ≤ w := by
  intro w hw
  unfold wts at hw
  rw [List.mem_map] at hw
  obtain ⟨q, hq', rfl⟩ := hw
  exact div_nonneg (hq q hq') (le_of_lt hsum)

theorem sum_neach_le (mol : Mol) (ns : ℕ) (hq : ∀ q ∈ mol.charges, 0 ≤ q)
    (hsum : 0 < mol.charges.sum) :
    (((neach mol ns).sum : ℕ) : ℚ) ≤ (ns : ℚ) := by
  unfold neach
  rw [Nat.cast_list_sum, List.map_map]
  have hle : (List.map ((fun n => (n : ℚ)) ∘ fun w => (⌊(ns : ℚ) * w⌋).toNat) (wts mol)).sum
      ≤ (List.map (fun w => (ns : ℚ) * w) (wts mol)).sum := by
    apply List.sum_le_sum
    intro w hw
    simp only [Function.comp_apply]
    have h0 : (0 : ℤ) ≤ ⌊(ns : ℚ) * w⌋ := by
      apply Int.floor_nonneg.mpr
      exact mul_nonneg (by positivity) (wts_nonneg mol hq hsum w hw)
    have h1 : ((⌊(ns : ℚ) * w⌋.toNat : ℕ) : ℚ) = ((⌊(ns : ℚ) * w⌋ : ℤ) : ℚ) := by
      conv_rhs => rw [← Int.toNat_of_nonneg h0]
      push_cast
      ring
    rw [h1]
    exact Int.floor_le _
  have hmul : (List.map (fun w => (ns : ℚ) * w) (wts mol)).sum
      = (ns : ℚ) * (wts mol).sum := by
    have := sum_map_mul_left (wts mol) (ns : ℚ) (fun w => w)
    simpa using this
  calc (List.map ((fun n => (n : ℚ)) ∘ fun w => (⌊(ns : ℚ) * w⌋).toNat) (wts mol)).sum
      ≤ (List.map (fun w => (ns : ℚ) * w) (wts mol)).sum := hle
    _ = (ns : ℚ) * (wts mol).sum := hmul
    _ = (ns : ℚ) := by rw [sum_wts mol (ne_of_gt hsum)]; ring

theorem sum_neach_le_nat (mol : Mol) (ns : ℕ) (hq : ∀ q ∈ mol.charges, 0 ≤ q)
    (hsum : 0 < mol.charges.sum) : (neach mol ns).sum ≤ ns := by
  exact_mod_cast sum_neach_le mol ns hq hsum

theorem sum_nleft (mol : Mol) (ns : ℕ) (hq : ∀ q ∈ mol.charges, 0 ≤ q)
    (hsum : 0 < mol.charges.sum) :
    (nleft mol ns).sum = (ns : ℚ) - (((neach mol ns).sum : ℕ) : ℚ) := by
  unfold nleft neach
  rw [sum_map_sub, Nat.cast_list_sum, List.map_map]
  congr 1
  have hmul : (List.map (fun w => (ns : ℚ) * w) (wts mol)).sum
      = (ns : ℚ) * (wts mol).sum := by
    have := sum_map_mul_left (wts mol) (ns : ℚ) (fun w => w)
    simpa using this
  calc (List.map (fun w => (ns : ℚ) * w) (wts mol)).sum
      = (ns : ℚ) * (wts mol).sum := hmul
    _ = (ns : ℚ) := by rw [sum_wts mol (ne_of_gt hsum)]; ring

theorem totLeft_eq (mol : Mol) (ns : ℕ) (hq : ∀ q ∈ mol.charges, 0 ≤ q)
    (hsum : 0 < mol.charges.sum) :
    totLeft mol ns = ns - (neach mol ns).sum := by
  unfold totLeft
  rw [sum_nleft mol ns hq hsum]
  have hle : (neach mol ns).sum ≤ ns := sum_neach_le_nat mol ns hq hsum
  have : (ns : ℚ) - (((neach mol ns).sum : ℕ) : ℚ) = ((ns - (neach mol ns).sum : ℕ) : ℚ) := by
    push_cast [hle]
    ring
  rw [this, Int.floor_natCast, Int.toNat_natCast]

/-- The per-walker atom assignment of `initial_guess` for one spin channel:
the floor core assignment topped up by one particle per drawn atom index. -/
def spinAtoms (mol : Mol) (ns : ℕ) (gets : List ℕ) : List ℕ :=
  replicateAtoms (topUp (neach mol ns) gets)

theorem length_neach (mol : Mol) (ns : ℕ) : (neach mol ns).length = mol.charges.length := by
  unfold neach wts
  simp

theorem length_spinAtoms (mol : Mol) (ns : ℕ) (gets : List ℕ)
    (hq : ∀ q ∈ mol.charges, 0 ≤ q) (hsum : 0 < mol.charges.sum)
    (hlen : gets.length = totLeft mol ns)
    (hmem : ∀ i ∈ gets, i < mol.charges.length) :
    (spinAtoms mol ns gets).length = ns := by
  unfold spinAtoms
  rw [length_replicateAtoms, sum_topUp _ _ (by rw [length_neach]; exact hmem), hlen,
    totLeft_eq mol ns hq hsum]
  have := sum_neach_le_nat mol ns hq hsum
  omega

theorem mem_spinAtoms (mol : Mol) (ns : ℕ) (gets : List ℕ) (k : ℕ)
    (hk : k ∈ spinAtoms mol ns gets) : k < mol.charges.length := by
  unfold spinAtoms at hk
  have := mem_replicateAtoms _ _ hk
  rwa [length_topUp, length_neach] at this

/-- `initial_guess(mol, nconfig, r)` (mc.py lines 7-32).  `(gets c).1/.2` hold
walker `c`'s `np.random.choice` draws for the two spin channels and
`gauss c t` the `np.random.randn(3)` draw consumed when slot `t` of walker `c`
is filled; slots not reached by the assignment loop keep the `np.zeros`
value. -/
def initial_guess (mol : Mol) (nconfig : ℕ) (r : ℚ)
    (gets : ℕ → List ℕ × List ℕ) (gauss : ℕ → ℕ → Vec3) : List (List Vec3) :=
  (List.range nconfig).map (fun c =>
    let atoms := spinAtoms mol mol.nelec0 (gets c).1
      ++ spinAtoms mol mol.nelec1 (gets c).2
    (List.range (mol.nelec0 + mol.nelec1)).map (fun t =>
      if t < atoms.length
      then mol.coords.getD (atoms.getD t 0) 0 + r • gauss c t
      else 0))

/-- `bins = np.cumsum(nleft) / totleft`. -/
def binsOf (mol : Mol) (ns : ℕ) : List ℚ :=
  (List.range (nleft mol ns).length).map
    (fun i => ((nleft mol ns).take (i + 1)).sum / ((totLeft mol ns : ℕ) : ℚ))

/-- `np.digitize(x, bins)` for monotonically increasing `bins`: the index of
the first bin edge strictly greater than `x`, i.e. the number of edges `≤ x`. -/
def digitize (x : ℚ) (bs : List ℚ) : ℕ := bs.countP (fun b => decide (b ≤ x))

/-- The batched assignment of `initial_guess_vectorize` for one spin channel:
the floor core assignment (identical for every walker) followed by the
leftover particles drawn by inverse-CDF digitization of uniform draws. -/
def spinAtomsVec (mol : Mol) (ns : ℕ) (u : ℕ → ℚ) : List ℕ :=
  replicateAtoms (neach mol ns) ++
    (List.range (totLeft mol ns)).map (fun t => digitize (u t) (binsOf mol ns))

/-- `initial_guess_vectorize(mol, nconfig, r)` (mc.py lines 34-57).
`unif c s t` is the uniform draw for walker `c`, spin channel `s`, leftover
slot `t`; `gauss c t` is the Gaussian shift that `epos += r*randn(*epos.shape)`
adds to every slot. -/
def initial_guess_vectorize (mol : Mol) (nconfig : ℕ) (r : ℚ)
    (unif : ℕ → ℕ → ℕ → ℚ) (gauss : ℕ → ℕ → Vec3) : List (List Vec3) :=
  (List.range nconfig).map (fun c =>
    (List.range (mol.nelec0 + mol.nelec1)).map (fun t =>
      (if t < mol.nelec0 then
        (if t < (spinAtomsVec mol mol.nelec0 (unif c 0)).length
         then mol.coords.getD ((spinAtomsVec mol mol.nelec0 (unif c 0)).getD t 0) 0
         else 0)
       else
        (if t - mol.nelec0 < (spinAtomsVec mol mol.nelec1 (unif c 1)).length
         then mol.coords.getD
            ((spinAtomsVec mol mol.nelec1 (unif c 1)).getD (t - mol.nelec0) 0) 0
         else 0)) + r • gauss c t))

theorem getD_map_range {α : Type} (n : ℕ) (f : ℕ → α) (d : α) (c : ℕ) (hc : c < n) :
    ((List.range n).map f).getD c d = f c := by
  have h : c < ((List.range n).map f).length := by simpa using hc
  rw [List.getD_eq_getElem _ _ h, List.getElem_map, List.getElem_range]

theorem charges_ne_nil (mol : Mol) (hsum : 0 < mol.charges.sum) :
    0 < mol.charges.length := by
  cases h : mol.charges with
  | nil => rw [h] at hsum; simp at hsum
  | cons q l => simp

theorem length_nleft (mol : Mol) (ns : ℕ) :
    (nleft mol ns).length = mol.charges.length := by
  unfold nleft wts
  simp

theorem length_binsOf (mol : Mol) (ns : ℕ) :
    (binsOf mol ns).length = mol.charges.length := by
  unfold binsOf
  rw [List.length_map, List.length_range, length_nleft]

theorem totLeft_cast (mol : Mol) (ns : ℕ) (hq : ∀ q ∈ mol.charges, 0 ≤ q)
    (hsum : 0 < mol.charges.sum) :
    ((totLeft mol ns : ℕ) : ℚ) = (nleft mol ns).sum := by
  rw [sum_nleft mol ns hq hsum, totLeft_eq mol ns hq hsum]
  have := sum_neach_le_nat mol ns hq hsum
  push_cast [this]
  ring

theorem binsOf_last (mol : Mol) (ns : ℕ) (hq : ∀ q ∈ mol.charges, 0 ≤ q)
    (hsum : 0 < mol.charges.sum) (hpos : 0 < totLeft mol ns) :
    (binsOf mol ns).getD (mol.charges.length - 1) 0 = 1 := by
  have hlen := charges_ne_nil mol hsum
  unfold binsOf
  rw [getD_map_range _ _ _ _ (by rw [length_nleft]; omega)]
  have htake : (nleft mol ns).take (mol.charges.length - 1 + 1) = nleft mol ns := by
    apply List.take_of_length_le
    rw [length_nleft]
    omega
  rw [htake, ← totLeft_cast mol ns hq hsum]
  apply div_self
  have : (0 : ℚ) < ((totLeft mol ns : ℕ) : ℚ) := by exact_mod_cast hpos
  exact ne_of_gt this

theorem digitize_lt (mol : Mol) (ns : ℕ) (x : ℚ) (hx : x < 1)
    (hq : ∀ q ∈ mol.charges, 0 ≤ q) (hsum : 0 < mol.charges.sum)
    (hpos : 0 < totLeft mol ns) :
    digitize x (binsOf mol ns) < mol.charges.length := by
  have hlen := charges_ne_nil mol hsum
  have hble : digitize x (binsOf mol ns) ≤ (binsOf mol ns).length :=
    List.countP_le_length _
  rw [length_binsOf] at hble
  rcases lt_or_eq_of_le hble with h | h
  · exact h
  · exfalso
    have hall : ∀ b ∈ binsOf mol ns, decide (b ≤ x) = true := by
      apply List.countP_eq_length.mp
      unfold digitize at h
      rw [h, length_binsOf]
    have hmemlast : (binsOf mol ns).getD (mol.charges.length - 1) 0 ∈ binsOf mol ns := by
      have hl : mol.charges.length - 1 < (binsOf mol ns).length := by
        rw [length_binsOf]
        omega
      rw [List.getD_eq_getElem _ _ hl]
      exact List.getElem_mem hl
    have := hall _ hmemlast
    rw [binsOf_last mol ns hq hsum hpos] at this
    simp at this
    linarith

theorem length_spinAtomsVec (mol : Mol) (ns : ℕ) (u : ℕ → ℚ)
    (hq : ∀ q ∈ mol.charges, 0 ≤ q) (hsum : 0 < mol.charges.sum) :
    (spinAtomsVec mol ns u).length = ns := by
  unfold spinAtomsVec
  rw [List.length_append, length_replicateAtoms, List.length_map, List.length_range,
    totLeft_eq mol ns hq hsum]
  have := sum_neach_le_nat mol ns hq hsum
  omega

theorem mem_spinAtomsVec (mol : Mol) (ns : ℕ) (u : ℕ → ℚ) (k : ℕ)
    (hq : ∀ q ∈ mol.charges, 0 ≤ q) (hsum : 0 < mol.charges.sum)
    (hu : ∀ t, u t < 1) (hk : k ∈ spinAtomsVec mol ns u) :
    k < mol.charges.length := by
  unfold spinAtomsVec at hk
  rw [List.mem_append] at hk
  rcases hk with hk | hk
  · have := mem_replicateAtoms _ _ hk
    rwa [length_neach] at this
  · rw [List.mem_map] at hk
    obtain ⟨t, ht, rfl⟩ := hk
    rw [List.mem_range] at ht
    exact digitize_lt mol ns (u t) (hu t) hq hsum (by omega)

/-- C7: for both initial-guess algorithms and every walker count `nconfig`,
the returned ensemble has `nconfig` walkers of `nelec[0]+nelec[1]` particles;
each walker's particle list is the channel-0 block (exactly `nelec[0]`
assigned atoms, indices `0..nelec[0]-1`) followed by the channel-1 block
(exactly `nelec[1]` assigned atoms); and every particle position equals its
assigned atom's coordinate plus `r` times that (walker, slot)'s own entry of
the supplied array of standard-Gaussian draws. -/
theorem c7_initial_guess (mol : Mol) (nconfig : ℕ) (r : ℚ)
    (gets : ℕ → List ℕ × List ℕ) (unif : ℕ → ℕ → ℕ → ℚ)
    (gauss gaussV : ℕ → ℕ → Vec3)
    (hq : ∀ q ∈ mol.charges, 0 ≤ q) (hsum : 0 < mol.charges.sum)
    (hg0 : ∀ c, (gets c).1.length = totLeft mol mol.nelec0)
    (hg0m : ∀ c, ∀ i ∈ (gets c).1, i < mol.charges.length)
    (hg1 : ∀ c, (gets c).2.length = totLeft mol mol.nelec1)
    (hg1m : ∀ c, ∀ i ∈ (gets c).2, i < mol.charges.length)
    (hu : ∀ c s t, unif c s t < 1) :
    (initial_guess mol nconfig r gets gauss).length = nconfig ∧
    (initial_guess_vectorize mol nconfig r unif gaussV).length = nconfig ∧
    (∀ c, (spinAtoms mol mol.nelec0 (gets c).1).length = mol.nelec0 ∧
      (spinAtoms mol mol.nelec1 (gets c).2).length = mol.nelec1) ∧
    (∀ c, (spinAtomsVec mol mol.nelec0 (unif c 0)).length = mol.nelec0 ∧
      (spinAtomsVec mol mol.nelec1 (unif c 1)).length = mol.nelec1) ∧
    (∀ c, c < nconfig →
      ((initial_guess mol nconfig r gets gauss).getD c []).length
        = mol.nelec0 + mol.nelec1 ∧
      ∀ t, t < mol.nelec0 + mol.nelec1 →
        ∃ k, k < mol.charges.length ∧
          (spinAtoms mol mol.nelec0 (gets c).1
            ++ spinAtoms mol mol.nelec1 (gets c).2).getD t 0 = k ∧
          ((initial_guess mol nconfig r gets gauss).getD c []).getD t 0
            = mol.coords.getD k 0 + r • gauss c t) ∧
    (∀ c, c < nconfig →
      ((initial_guess_vectorize mol nconfig r unif gaussV).getD c []).length
        = mol.nelec0 + mol.nelec1 ∧
      ∀ t, t < mol.nelec0 + mol.nelec1 →
        ∃ k, k < mol.charges.length ∧
          k = (if t < mol.nelec0
               then (spinAtomsVec mol mol.nelec0 (unif c 0)).getD t 0
               else (spinAtomsVec mol mol.nelec1 (unif c 1)).getD (t - mol.nelec0) 0) ∧
          ((initial_guess_vectorize mol nconfig r unif gaussV).getD c []).getD t 0
            = mol.coords.getD k 0 + r • gaussV c t) := by
  have hlen0 : ∀ c, (spinAtoms mol mol.nelec0 (gets c).1).length = mol.nelec0 :=
    fun c => length_spinAtoms mol mol.nelec0 (gets c).1 hq hsum (hg0 c) (hg0m c)
  have hlen1 : ∀ c, (spinAtoms mol mol.nelec1 (gets c).2).length = mol.nelec1 :=
    fun c => length_spinAtoms mol mol.nelec1 (gets c).2 hq hsum (hg1 c) (hg1m c)
  have hlenV0 : ∀ c, (spinAtomsVec mol mol.nelec0 (unif c 0)).length = mol.nelec0 :=
    fun c => length_spinAtomsVec mol mol.nelec0 (unif c 0) hq hsum
  have hlenV1 : ∀ c, (spinAtomsVec mol mol.nelec1 (unif c 1)).length = mol.nelec1 :=
    fun c => length_spinAtomsVec mol mol.nelec1 (unif c 1) hq hsum
  refine ⟨by simp [initial_guess], by simp [initial_guess_vectorize],
    fun c => ⟨hlen0 c, hlen1 c⟩, fun c => ⟨hlenV0 c, hlenV1 c⟩, ?_, ?_⟩
  · intro c hc
    have hrow : (initial_guess mol nconfig r gets gauss).getD c []
        = (List.range (mol.nelec0 + mol.nelec1)).map (fun t =>
            if t < (spinAtoms mol mol.nelec0 (gets c).1
                ++ spinAtoms mol mol.nelec1 (gets c).2).length
            then mol.coords.getD ((spinAtoms mol mol.nelec0 (gets c).1
                ++ spinAtoms mol mol.nelec1 (gets c).2).getD t 0) 0 + r • gauss c t
            else 0) := by
      unfold initial_guess
      exact getD_map_range nconfig _ [] c hc
    have hlena : (spinAtoms mol mol.nelec0 (gets c).1
        ++ spinAtoms mol mol.nelec1 (gets c).2).length
        = mol.nelec0 + mol.nelec1 := by
      rw [List.length_append, hlen0 c, hlen1 c]
    constructor
    · rw [hrow]
      simp
    · intro t ht
      have htl : t < (spinAtoms mol mol.nelec0 (gets c).1
          ++ spinAtoms mol mol.nelec1 (gets c).2).length := by
        rw [hlena]
        exact ht
      refine ⟨(spinAtoms mol mol.nelec0 (gets c).1
          ++ spinAtoms mol mol.nelec1 (gets c).2).getD t 0, ?_, rfl, ?_⟩
      · have hmem : (spinAtoms mol mol.nelec0 (gets c).1
            ++ spinAtoms mol mol.nelec1 (gets c).2).getD t 0
            ∈ (spinAtoms mol mol.nelec0 (gets c).1
                ++ spinAtoms mol mol.nelec1 (gets c).2) := by
          rw [List.getD_eq_getElem _ _ htl]
          exact List.getElem_mem htl
        rw [List.mem_append] at hmem
        rcases hmem with h | h
        · exact mem_spinAtoms _ _ _ _ h
        · exact mem_spinAtoms _ _ _ _ h
      · rw [hrow, getD_map_range _ _ _ _ ht, if_pos htl]
  · intro c hc
    have hrow : (initial_guess_vectorize mol nconfig r unif gaussV).getD c []
        = (List.range (mol.nelec0 + mol.nelec1)).map (fun t =>
            (if t < mol.nelec0 then
              (if t < (spinAtomsVec mol mol.nelec0 (unif c 0)).length
               then mol.coords.getD
                  ((spinAtomsVec mol mol.nelec0 (unif c 0)).getD t 0) 0
               else 0)
             else
              (if t - mol.nelec0 < (spinAtomsVec mol mol.nelec1 (unif c 1)).length
               then mol.coords.getD
                  ((spinAtomsVec mol mol.nelec1 (unif c 1)).getD (t - mol.nelec0) 0) 0
               else 0)) + r • gaussV c t) := by
      unfold initial_guess_vectorize
      exact getD_map_range nconfig _ [] c hc
    constructor
    · rw [hrow]
      simp
    · intro t ht
      by_cases ht0 : t < mol.nelec0
      · refine ⟨(spinAtomsVec mol mol.nelec0 (unif c 0)).getD t 0, ?_,
          by rw [if_pos ht0], ?_⟩
        · have htl : t < (spinAtomsVec mol mol.nelec0 (unif c 0)).length := by
            rw [hlenV0 c]
            exact ht0
          have hmem : (spinAtomsVec mol mol.nelec0 (unif c 0)).getD t 0
              ∈ spinAtomsVec mol mol.nelec0 (unif c 0) := by
            rw [List.getD_eq_getElem _ _ htl]
            exact List.getElem_mem htl
          exact mem_spinAtomsVec mol mol.nelec0 (unif c 0) _ hq hsum
            (fun t' => hu c 0 t') hmem
        · rw [hrow, getD_map_range _ _ _ _ ht, if_pos ht0,
            if_pos (by rw [hlenV0 c]; exact ht0)]
      · refine ⟨(spinAtomsVec mol mol.nelec1 (unif c 1)).getD (t - mol.nelec0) 0, ?_,
          by rw [if_neg ht0], ?_⟩
        · have htl : t - mol.nelec0 < (spinAtomsVec mol mol.nelec1 (unif c 1)).length := by
            rw [hlenV1 c]
            omega
          have hmem : (spinAtomsVec mol mol.nelec1 (unif c 1)).getD (t - mol.nelec0) 0
              ∈ spinAtomsVec mol mol.nelec1 (unif c 1) := by
            rw [List.getD_eq_getElem _ _ htl]
            exact List.getElem_mem htl
          exact mem_spinAtomsVec mol mol.nelec1 (unif c 1) _ hq hsum
            (fun t' => hu c 1 t') hmem
        · rw [hrow, getD_map_range _ _ _ _ ht, if_neg ht0,
            if_pos (by rw [hlenV1 c]; omega)]

/-- Witness for C7: two atoms of charge 1, one particle per spin channel,
two walkers. -/
theorem c7_initial_guess_witness :
    ((∀ q ∈ (⟨1, 1, [1, 1], [⟨0, 0, 0⟩, ⟨2, 0, 0⟩]⟩ : Mol).charges, 0 ≤ q) ∧
     0 < (⟨1, 1, [1, 1], [⟨0, 0, 0⟩, ⟨2, 0, 0⟩]⟩ : Mol).charges.sum ∧
     (∀ c : ℕ, (([0], [1]) : List ℕ × List ℕ).1.length
        = totLeft (⟨1, 1, [1, 1], [⟨0, 0, 0⟩, ⟨2, 0, 0⟩]⟩ : Mol) 1) ∧
     (∀ c s t : ℕ, (1 : ℚ) / 2 < 1)) ∧
    (initial_guess (⟨1, 1, [1, 1], [⟨0, 0, 0⟩, ⟨2, 0, 0⟩]⟩ : Mol) 2 1
      (fun _ => ([0], [1])) (fun _ _ => ⟨0, 0, 0⟩)).length = 2 := by
  have hq : ∀ q ∈ (⟨1, 1, [1, 1], [⟨0, 0, 0⟩, ⟨2, 0, 0⟩]⟩ : Mol).charges, 0 ≤ q := by
    intro q hq
    simp at hq
    rw [hq]
    norm_num
  have hsum : 0 < (⟨1, 1, [1, 1], [⟨0, 0, 0⟩, ⟨2, 0, 0⟩]⟩ : Mol).charges.sum := by
    norm_num [List.sum_cons, List.sum_nil]
  have htl : totLeft (⟨1, 1, [1, 1], [⟨0, 0, 0⟩, ⟨2, 0, 0⟩]⟩ : Mol) 1 = 1 := by
    norm_num [totLeft, nleft, wts, neach, List.sum_cons, List.sum_nil]
  have hmem0 : ∀ c : ℕ, ∀ i ∈ (([0], [1]) : List ℕ × List ℕ).1,
      i < (⟨1, 1, [1, 1], [⟨0, 0, 0⟩, ⟨2, 0, 0⟩]⟩ : Mol).charges.length := by
    intro c i hi
    simp at hi
    subst hi
    simp
  have hmem1 : ∀ c : ℕ, ∀ i ∈ (([0], [1]) : List ℕ × List ℕ).2,
      i < (⟨1, 1, [1, 1], [⟨0, 0, 0⟩, ⟨2, 0, 0⟩]⟩ : Mol).charges.length := by
    intro c i hi
    simp at hi
    subst hi
    simp
  refine ⟨⟨hq, hsum, fun c => by rw [htl]; rfl, fun c s t => by norm_num⟩, ?_⟩
  exact (c7_initial_guess (⟨1, 1, [1, 1], [⟨0, 0, 0⟩, ⟨2, 0, 0⟩]⟩ : Mol) 2 1
    (fun _ => ([0], [1])) (fun _ _ _ => 1/2) (fun _ _ => ⟨0, 0, 0⟩) (fun _ _ => ⟨0, 0, 0⟩)
    hq hsum (fun c => by rw [htl]; rfl) (hmem0) (fun c => by rw [htl]; rfl) (hmem1)
    (fun c s t => by norm_num)).1

/-- `sample_onebody(mol, orb_coeff, configs, tstep)` (obdm.py lines 127-141):
one Metropolis sweep of the auxiliary chain.  `f r` is the external orbital
density weight `sum of squared orbital amplitudes at r` (the `fsum` obtained
through `mol.eval_gto` and `orb_coeff`); `moves` holds the
`sqrt(tstep)*randn` proposal offsets and `unif` the uniform draws.  Accepted
rows are overwritten in place; no point is added or removed. -/
def sample_onebody (f : Vec3 → ℚ) (configs moves : List Vec3) (unif : List ℚ) :
    List Bool × List Vec3 :=
  let newconf := List.zipWith (fun x m => x + m) configs moves
  let accept := (List.range configs.length).map
    (fun i => decide (f (newconf.getD i 0) / f (configs.getD i 0) > unif.getD i 0))
  (accept,
   (List.range configs.length).map
    (fun i => if accept.getD i false then newconf.getD i 0 else configs.getD i 0))

/-- The OBDM auxiliary pool directly after construction:
`initial_guess(mol, int(naux/nelec) + 1).reshape(-1, 3)`, i.e. the walker
ensemble flattened to a single list of 3-vectors. -/
def obdm_extra_config_init (mol : Mol) (naux : ℕ) (r : ℚ)
    (gets : ℕ → List ℕ × List ℕ) (gauss : ℕ → ℕ → Vec3) : List Vec3 :=
  (initial_guess mol (naux / (mol.nelec0 + mol.nelec1) + 1) r gets gauss).flatten

/-- Advancing the auxiliary pool through consecutive one-body Metropolis
sweeps: both the `warmup` loop of `OBDMAccumulator.__init__` and the
per-repetition sweeps of `OBDMAccumulator.__call__` have this shape (each
iteration rebinds `self._extra_config` to the array `sample_onebody`
returns). -/
def advance_pool (f : Vec3 → ℚ) (draws : List (List Vec3 × List ℚ))
    (pool : List Vec3) : List Vec3 :=
  draws.foldl (fun cfg d => (sample_onebody f cfg d.1 d.2).2) pool

theorem length_sample_onebody (f : Vec3 → ℚ) (configs moves : List Vec3)
    (unif : List ℚ) :
    (sample_onebody f configs moves unif).2.length = configs.length := by
  unfold sample_onebody
  simp

theorem length_advance_pool (f : Vec3 → ℚ) (draws : List (List Vec3 × List ℚ)) :
    ∀ pool : List Vec3, (advance_pool f draws pool).length = pool.length := by
  unfold advance_pool
  induction draws with
  | nil => intro pool; rfl
  | cons d draws ih =>
    intro pool
    rw [List.foldl_cons, ih, length_sample_onebody]

/-- C10: the auxiliary pool is created with exactly
`(floor(naux/nelec) + 1) * nelec` points (`nelec` the total particle count),
which is always strictly more than the requested `naux`; and its size is
preserved unchanged by every one-body Metropolis sweep — hence by the warmup
loop and by the `nstep` sweeps of every estimation call, which only
overwrite accepted rows in place. -/
theorem c10_obdm_aux_pool (mol : Mol) (naux : ℕ) (r : ℚ)
    (gets : ℕ → List ℕ × List ℕ) (gauss : ℕ → ℕ → Vec3) (f : Vec3 → ℚ)
    (hnelec : 0 < mol.nelec0 + mol.nelec1) :
    (obdm_extra_config_init mol naux r gets gauss).length
      = (naux / (mol.nelec0 + mol.nelec1) + 1) * (mol.nelec0 + mol.nelec1) ∧
    naux < (obdm_extra_config_init mol naux r gets gauss).length ∧
    (∀ (configs moves : List Vec3) (unif : List ℚ),
      (sample_onebody f configs moves unif).2.length = configs.length) ∧
    (∀ (draws : List (List Vec3 × List ℚ)) (pool : List Vec3),
      (advance_pool f draws pool).length = pool.length) := by
  have hsize : (obdm_extra_config_init mol naux r gets gauss).length
      = (naux / (mol.nelec0 + mol.nelec1) + 1) * (mol.nelec0 + mol.nelec1) := by
    unfold obdm_extra_config_init initial_guess
    rw [List.length_flatten, List.map_map]
    have h : List.map (List.length ∘ fun c =>
          (List.range (mol.nelec0 + mol.nelec1)).map (fun t =>
            if t < (spinAtoms mol mol.nelec0 (gets c).1
                ++ spinAtoms mol mol.nelec1 (gets c).2).length
            then mol.coords.getD ((spinAtoms mol mol.nelec0 (gets c).1
                ++ spinAtoms mol mol.nelec1 (gets c).2).getD t 0) 0 + r • gauss c t
            else 0))
        (List.range (naux / (mol.nelec0 + mol.nelec1) + 1))
        = List.map (Function.const ℕ (mol.nelec0 + mol.nelec1))
          (List.range (naux / (mol.nelec0 + mol.nelec1) + 1)) := by
      apply List.map_congr_left
      intro c _
      simp
    rw [h, List.map_const, List.sum_replicate]
    simp [Nat.mul_comm]
  refine ⟨hsize, ?_, length_sample_onebody f, length_advance_pool f⟩
  rw [hsize]
  have h1 := Nat.lt_div_mul_add (a := naux) hnelec
  have h2 : (naux / (mol.nelec0 + mol.nelec1) + 1) * (mol.nelec0 + mol.nelec1)
      = naux / (mol.nelec0 + mol.nelec1) * (mol.nelec0 + mol.nelec1)
        + (mol.nelec0 + mol.nelec1) := by
    ring
  omega

/-- Witness for C10: `naux = 5`, two particles per walker. -/
theorem c10_obdm_aux_pool_witness :
    (0 < (⟨1, 1, [1, 1], [⟨0, 0, 0⟩, ⟨2, 0, 0⟩]⟩ : Mol).nelec0
        + (⟨1, 1, [1, 1], [⟨0, 0, 0⟩, ⟨2, 0, 0⟩]⟩ : Mol).nelec1) ∧
    (obdm_extra_config_init (⟨1, 1, [1, 1], [⟨0, 0, 0⟩, ⟨2, 0, 0⟩]⟩ : Mol) 5 1
        (fun _ => ([0], [1])) (fun _ _ => ⟨0, 0, 0⟩)).length = (5 / 2 + 1) * 2 := by
  constructor
  · norm_num
  · exact (c10_obdm_aux_pool (⟨1, 1, [1, 1], [⟨0, 0, 0⟩, ⟨2, 0, 0⟩]⟩ : Mol) 5 1
      (fun _ => ([0], [1])) (fun _ _ => ⟨0, 0, 0⟩) (fun _ => 1) (by norm_num)).1

/-- The order in which `point_list` enumerates the 27 offsets: meshgrid with
`indexing="xy"` ravels with the SECOND component outermost, then the first,
then the third. -/
def lexPt (u v : ℤ × ℤ × ℤ) : Prop :=
  u.2.1 < v.2.1 ∨ (u.2.1 = v.2.1 ∧ (u.1 < v.1 ∨ (u.1 = v.1 ∧ u.2.2 < v.2.2)))

instance : DecidableRel lexPt := fun u v => by
  unfold lexPt
  infer_instance

theorem point_list_sorted : List.Pairwise lexPt point_list := by decide

theorem length_point_list : point_list.length = 27 := by decide

theorem mem_point_list (a b c : ℤ) (ha1 : -1 ≤ a) (ha2 : a ≤ 1)
    (hb1 : -1 ≤ b) (hb2 : b ≤ 1) (hc1 : -1 ≤ c) (hc2 : c ≤ 1) :
    (a, b, c) ∈ point_list := by
  interval_cases a <;> interval_cases b <;> interval_cases c <;> decide

theorem wrap_coord_strict (w g : ℚ) (m : ℤ) (hw : 0 < w)
    (hg1 : -(1/2) ≤ g) (hg2 : g < 1/2) (hm : m < 0) :
    w * g ^ 2 < w * (g + (m : ℚ)) ^ 2 := by
  have hm1 : m ≤ -1 := by omega
  have h1 : (m : ℚ) ≤ -1 := by exact_mod_cast hm1
  have h2 : (m : ℚ) + 2 * g < 0 := by linarith
  have h3 : 0 < (m : ℚ) * ((m : ℚ) + 2 * g) := mul_pos_of_neg_of_neg (by linarith) h2
  nlinarith [mul_pos hw h3]

theorem wrap_coord_min (w g : ℚ) (m : ℤ) (hw : 0 < w)
    (hg1 : -(1/2) ≤ g) (hg2 : g < 1/2) :
    w * g ^ 2 ≤ w * (g + (m : ℚ)) ^ 2 := by
  rcases lt_trichotomy m 0 with hm | hm | hm
  · exact le_of_lt (wrap_coord_strict w g m hw hg1 hg2 hm)
  · subst hm
    simp
  · have hm1 : 1 ≤ m := by omega
    have h1 : (1 : ℚ) ≤ (m : ℚ) := by exact_mod_cast hm1
    have h2 : (0 : ℚ) ≤ (m : ℚ) + 2 * g := by linarith
    have h3 : (0 : ℚ) ≤ (m : ℚ) * ((m : ℚ) + 2 * g) := mul_nonneg (by linarith) h2
    nlinarith [mul_nonneg (le_of_lt hw) h3]

/-- The squared norm of the 27-image candidate with integer offset `n`,
expressed in fractional coordinates `f` for a lattice with mutually
orthogonal rows (proof-layer abbreviation). -/
def candVal (L : Mat3) (f : Vec3) (n : ℤ × ℤ × ℤ) : ℚ :=
  normSq L.a * (f.x + (n.1 : ℚ)) ^ 2 + normSq L.b * (f.y + (n.2.1 : ℚ)) ^ 2
    + normSq L.c * (f.z + (n.2.2 : ℚ)) ^ 2

theorem general_dists_eq_map (L : Mat3) (d1 : Vec3) :
    ((shiftsOf L).map (fun s => d1 + s)).map normSq
      = point_list.map (fun n => normSq (d1 + rowMul (intVec n) L)) := by
  unfold shiftsOf
  rw [List.map_map, List.map_map]
  rfl

theorem general_cand_eq_candVal (L : Mat3) (hdet : det3 L ≠ 0)
    (hab : dotV L.a L.b = 0) (hbc : dotV L.b L.c = 0) (hca : dotV L.c L.a = 0)
    (d1 : Vec3) (n : ℤ × ℤ × ℤ) :
    normSq (d1 + rowMul (intVec n) L) = candVal L (rowMul d1 (inv3 L)) n := by
  conv_lhs => rw [← rowMul_inv3_rowMul L hdet d1]
  rw [← rowMul_add,
    normSq_rowMul_orthogonal L hab hbc hca (rowMul d1 (inv3 L) + intVec n)]
  unfold candVal intVec
  rw [Vec3.add_def]
  ring

theorem general_dists_getD (L : Mat3) (hdet : det3 L ≠ 0)
    (hab : dotV L.a L.b = 0) (hbc : dotV L.b L.c = 0) (hca : dotV L.c L.a = 0)
    (d1 : Vec3) (t : ℕ) (ht : t < 27) :
    (((shiftsOf L).map (fun s => d1 + s)).map normSq).getD t 0
      = candVal L (rowMul d1 (inv3 L)) (point_list.getD t (0, 0, 0)) := by
  have hplen : t < point_list.length := by rw [length_point_list]; exact ht
  rw [general_dists_eq_map]
  have hmlen : t < (point_list.map (fun n => normSq (d1 + rowMul (intVec n) L))).length := by
    simpa using hplen
  rw [List.getD_eq_getElem _ _ hmlen, List.getElem_map,
    general_cand_eq_candVal L hdet hab hbc hca d1, List.getD_eq_getElem _ _ hplen]

theorem candVal_min (L : Mat3) (hdet : det3 L ≠ 0) (f : Vec3)
    (k n : ℤ × ℤ × ℤ)
    (hgx1 : -(1/2) ≤ f.x + (k.1 : ℚ)) (hgx2 : f.x + (k.1 : ℚ) < 1/2)
    (hgy1 : -(1/2) ≤ f.y + (k.2.1 : ℚ)) (hgy2 : f.y + (k.2.1 : ℚ) < 1/2)
    (hgz1 : -(1/2) ≤ f.z + (k.2.2 : ℚ)) (hgz2 : f.z + (k.2.2 : ℚ) < 1/2) :
    candVal L f k ≤ candVal L f n := by
  have hwa : 0 < normSq L.a := normSq_pos_of_ne_zero _ (row_a_ne_zero_of_det L hdet)
  have hwb : 0 < normSq L.b := normSq_pos_of_ne_zero _ (row_b_ne_zero_of_det L hdet)
  have hwc : 0 < normSq L.c := normSq_pos_of_ne_zero _ (row_c_ne_zero_of_det L hdet)
  have ex : (f.x + (n.1 : ℚ)) = (f.x + (k.1 : ℚ)) + ((n.1 - k.1 : ℤ) : ℚ) := by
    push_cast
    ring
  have ey : (f.y + (n.2.1 : ℚ)) = (f.y + (k.2.1 : ℚ)) + ((n.2.1 - k.2.1 : ℤ) : ℚ) := by
    push_cast
    ring
  have ez : (f.z + (n.2.2 : ℚ)) = (f.z + (k.2.2 : ℚ)) + ((n.2.2 - k.2.2 : ℤ) : ℚ) := by
    push_cast
    ring
  unfold candVal
  rw [ex, ey, ez]
  have t1 := wrap_coord_min (normSq L.a) (f.x + (k.1 : ℚ)) (n.1 - k.1) hwa hgx1 hgx2
  have t2 := wrap_coord_min (normSq L.b) (f.y + (k.2.1 : ℚ)) (n.2.1 - k.2.1) hwb hgy1 hgy2
  have t3 := wrap_coord_min (normSq L.c) (f.z + (k.2.2 : ℚ)) (n.2.2 - k.2.2) hwc hgz1 hgz2
  linarith

theorem candVal_strict (L : Mat3) (hdet : det3 L ≠ 0) (f : Vec3)
    (k n : ℤ × ℤ × ℤ)
    (hgx1 : -(1/2) ≤ f.x + (k.1 : ℚ)) (hgx2 : f.x + (k.1 : ℚ) < 1/2)
    (hgy1 : -(1/2) ≤ f.y + (k.2.1 : ℚ)) (hgy2 : f.y + (k.2.1 : ℚ) < 1/2)
    (hgz1 : -(1/2) ≤ f.z + (k.2.2 : ℚ)) (hgz2 : f.z + (k.2.2 : ℚ) < 1/2)
    (hlex : lexPt n k) :
    candVal L f k < candVal L f n := by
  have hwa : 0 < normSq L.a := normSq_pos_of_ne_zero _ (row_a_ne_zero_of_det L hdet)
  have hwb : 0 < normSq L.b := normSq_pos_of_ne_zero _ (row_b_ne_zero_of_det L hdet)
  have hwc : 0 < normSq L.c := normSq_pos_of_ne_zero _ (row_c_ne_zero_of_det L hdet)
  have ex : (f.x + (n.1 : ℚ)) = (f.x + (k.1 : ℚ)) + ((n.1 - k.1 : ℤ) : ℚ) := by
    push_cast
    ring
  have ey : (f.y + (n.2.1 : ℚ)) = (f.y + (k.2.1 : ℚ)) + ((n.2.1 - k.2.1 : ℤ) : ℚ) := by
    push_cast
    ring
  have ez : (f.z + (n.2.2 : ℚ)) = (f.z + (k.2.2 : ℚ)) + ((n.2.2 - k.2.2 : ℤ) : ℚ) := by
    push_cast
    ring
  unfold candVal
  rw [ex, ey, ez]
  have t1 := wrap_coord_min (normSq L.a) (f.x + (k.1 : ℚ)) (n.1 - k.1) hwa hgx1 hgx2
  have t2 := wrap_coord_min (normSq L.b) (f.y + (k.2.1 : ℚ)) (n.2.1 - k.2.1) hwb hgy1 hgy2
  have t3 := wrap_coord_min (normSq L.c) (f.z + (k.2.2 : ℚ)) (n.2.2 - k.2.2) hwc hgz1 hgz2
  unfold lexPt at hlex
  rcases hlex with h | ⟨h2eq, h | ⟨h1eq, h⟩⟩
  · have s2 := wrap_coord_strict (normSq L.b) (f.y + (k.2.1 : ℚ)) (n.2.1 - k.2.1)
      hwb hgy1 hgy2 (by omega)
    linarith
  · have s1 := wrap_coord_strict (normSq L.a) (f.x + (k.1 : ℚ)) (n.1 - k.1)
      hwa hgx1 hgx2 (by omega)
    linarith
  · have s3 := wrap_coord_strict (normSq L.c) (f.z + (k.2.2 : ℚ)) (n.2.2 - k.2.2)
      hwc hgz1 hgz2 (by omega)
    linarith

theorem shiftsOf_getD (L : Mat3) (t : ℕ) (ht : t < 27) :
    (shiftsOf L).getD t 0 = rowMul (intVec (point_list.getD t (0, 0, 0))) L := by
  have hplen : t < point_list.length := by rw [length_point_list]; exact ht
  unfold shiftsOf
  have hmlen : t < (point_list.map (fun n => rowMul (intVec n) L)).length := by
    simpa using hplen
  rw [List.getD_eq_getElem _ _ hmlen, List.getElem_map, List.getD_eq_getElem _ _ hplen]

theorem length_dists (L : Mat3) (d1 : Vec3) :
    (((shiftsOf L).map (fun s => d1 + s)).map normSq).length = 27 := by
  rw [List.length_map, List.length_map, length_shiftsOf]

theorem orth_eq_general_one (L : Mat3) (hdet : det3 L ≠ 0)
    (hab : dotV L.a L.b = 0) (hbc : dotV L.b L.c = 0) (hca : dotV L.c L.a = 0)
    (d1 : Vec3)
    (hx1 : -(3/2) ≤ (rowMul d1 (inv3 L)).x) (hx2 : (rowMul d1 (inv3 L)).x < 3/2)
    (hy1 : -(3/2) ≤ (rowMul d1 (inv3 L)).y) (hy2 : (rowMul d1 (inv3 L)).y < 3/2)
    (hz1 : -(3/2) ≤ (rowMul d1 (inv3 L)).z) (hz2 : (rowMul d1 (inv3 L)).z < 3/2) :
    orthogonal_dist_one L d1 = general_dist_one L d1 := by
  set kx : ℤ := -⌊(rowMul d1 (inv3 L)).x + 1/2⌋ with hkx
  set ky : ℤ := -⌊(rowMul d1 (inv3 L)).y + 1/2⌋ with hky
  set kz : ℤ := -⌊(rowMul d1 (inv3 L)).z + 1/2⌋ with hkz
  have hwx : wrapHalf (rowMul d1 (inv3 L)).x = (rowMul d1 (inv3 L)).x + (kx : ℚ) := by
    rw [wrapHalf_eq, hkx]
    push_cast
    ring
  have hwy : wrapHalf (rowMul d1 (inv3 L)).y = (rowMul d1 (inv3 L)).y + (ky : ℚ) := by
    rw [wrapHalf_eq, hky]
    push_cast
    ring
  have hwz : wrapHalf (rowMul d1 (inv3 L)).z = (rowMul d1 (inv3 L)).z + (kz : ℚ) := by
    rw [wrapHalf_eq, hkz]
    push_cast
    ring
  have hgx1 : -(1/2) ≤ (rowMul d1 (inv3 L)).x + (kx : ℚ) := by
    rw [← hwx]
    exact wrapHalf_lb _
  have hgx2 : (rowMul d1 (inv3 L)).x + (kx : ℚ) < 1/2 := by
    rw [← hwx]
    exact wrapHalf_ub _
  have hgy1 : -(1/2) ≤ (rowMul d1 (inv3 L)).y + (ky : ℚ) := by
    rw [← hwy]
    exact wrapHalf_lb _
  have hgy2 : (rowMul d1 (inv3 L)).y + (ky : ℚ) < 1/2 := by
    rw [← hwy]
    exact wrapHalf_ub _
  have hgz1 : -(1/2) ≤ (rowMul d1 (inv3 L)).z + (kz : ℚ) := by
    rw [← hwz]
    exact wrapHalf_lb _
  have hgz2 : (rowMul d1 (inv3 L)).z + (kz : ℚ) < 1/2 := by
    rw [← hwz]
    exact wrapHalf_ub _
  have hkx1 : -1 ≤ kx := by
    have h := Int.floor_lt.mpr (show (rowMul d1 (inv3 L)).x + 1/2 < ((2 : ℤ) : ℚ) by
      push_cast; linarith)
    omega
  have hkx2 : kx ≤ 1 := by
    have h := Int.le_floor.mpr (show ((-1 : ℤ) : ℚ) ≤ (rowMul d1 (inv3 L)).x + 1/2 by
      push_cast; linarith)
    omega
  have hky1 : -1 ≤ ky := by
    have h := Int.floor_lt.mpr (show (rowMul d1 (inv3 L)).y + 1/2 < ((2 : ℤ) : ℚ) by
      push_cast; linarith)
    omega
  have hky2 : ky ≤ 1 := by
    have h := Int.le_floor.mpr (show ((-1 : ℤ) : ℚ) ≤ (rowMul d1 (inv3 L)).y + 1/2 by
      push_cast; linarith)
    omega
  have hkz1 : -1 ≤ kz := by
    have h := Int.floor_lt.mpr (show (rowMul d1 (inv3 L)).z + 1/2 < ((2 : ℤ) : ℚ) by
      push_cast; linarith)
    omega
  have hkz2 : kz ≤ 1 := by
    have h := Int.le_floor.mpr (show ((-1 : ℤ) : ℚ) ≤ (rowMul d1 (inv3 L)).z + 1/2 by
      push_cast; linarith)
    omega
  have hK : (kx, ky, kz) ∈ point_list :=
    mem_point_list kx ky kz hkx1 hkx2 hky1 hky2 hkz1 hkz2
  obtain ⟨p, hp, hpK⟩ := List.mem_iff_getElem.mp hK
  have hp27 : p < 27 := by rw [length_point_list] at hp; exact hp
  have hgetK : point_list.getD p (0, 0, 0) = (kx, ky, kz) := by
    rw [List.getD_eq_getElem _ _ hp]
    exact hpK
  have hpD : p < (((shiftsOf L).map (fun s => d1 + s)).map normSq).length := by
    rw [length_dists]
    exact hp27
  have hargmin : argminIdx (((shiftsOf L).map (fun s => d1 + s)).map normSq) = p := by
    apply argminIdx_eq _ p hpD
    · intro t htD
      have ht27 : t < 27 := by rw [length_dists] at htD; exact htD
      rw [general_dists_getD L hdet hab hbc hca d1 p hp27,
        general_dists_getD L hdet hab hbc hca d1 t ht27, hgetK]
      exact candVal_min L hdet (rowMul d1 (inv3 L)) (kx, ky, kz) _
        hgx1 hgx2 hgy1 hgy2 hgz1 hgz2
    · intro t htp
      have ht27 : t < 27 := by omega
      have htplen : t < point_list.length := by rw [length_point_list]; exact ht27
      rw [general_dists_getD L hdet hab hbc hca d1 p hp27,
        general_dists_getD L hdet hab hbc hca d1 t ht27, hgetK]
      apply candVal_strict L hdet (rowMul d1 (inv3 L)) (kx, ky, kz) _
        hgx1 hgx2 hgy1 hgy2 hgz1 hgz2
      have hlex := List.pairwise_iff_getElem.mp point_list_sorted t p htplen hp htp
      rw [hpK] at hlex
      rw [List.getD_eq_getElem _ _ htplen]
      exact hlex
  have hpc : p < ((shiftsOf L).map (fun s => d1 + s)).length := by
    rw [List.length_map, length_shiftsOf]
    exact hp27
  have hps : p < (shiftsOf L).length := by
    rw [length_shiftsOf]
    exact hp27
  have hgen : general_dist_one L d1 = d1 + rowMul (intVec (kx, ky, kz)) L := by
    show ((shiftsOf L).map (fun s => d1 + s)).getD
        (argminIdx (((shiftsOf L).map (fun s => d1 + s)).map normSq)) 0
      = d1 + rowMul (intVec (kx, ky, kz)) L
    rw [hargmin, List.getD_eq_getElem _ _ hpc, List.getElem_map,
      ← List.getD_eq_getElem _ _ hps, shiftsOf_getD L p hp27, hgetK]
  have hwv : wrapVec (rowMul d1 (inv3 L))
      = rowMul d1 (inv3 L) + intVec (kx, ky, kz) := by
    show (⟨wrapHalf (rowMul d1 (inv3 L)).x, wrapHalf (rowMul d1 (inv3 L)).y,
      wrapHalf (rowMul d1 (inv3 L)).z⟩ : Vec3) = _
    rw [hwx, hwy, hwz]
    rfl
  have horth : orthogonal_dist_one L d1
      = rowMul (rowMul d1 (inv3 L)) L + rowMul (intVec (kx, ky, kz)) L := by
    show rowMul (wrapVec (rowMul d1 (inv3 L))) L = _
    rw [hwv, rowMul_add]
  rw [horth, rowMul_inv3_rowMul L hdet d1, hgen]

set_option maxHeartbeats 1000000 in
set_option maxRecDepth 8000 in
/-- C3 (counterexample): the lattice with rows `(1,0,0)`, `(0,1,0)`,
`(0,0,1)` is mutually orthogonal and invertible, yet on the input
`configs = [[(0,0,0)]]`, `vec = [(10,0,0)]` (raw displacement ten lattice
cells long) the orthogonal fast path fully wraps the displacement to
`(0,0,0)` while the general search, restricted to the 27 nearest images,
returns `(9,0,0)`: the two paths do not agree on every input. -/
theorem c3_orthogonal_counterexample :
    dotV (⟨1, 0, 0⟩ : Vec3) ⟨0, 1, 0⟩ = 0 ∧
    dotV (⟨0, 1, 0⟩ : Vec3) ⟨0, 0, 1⟩ = 0 ∧
    dotV (⟨0, 0, 1⟩ : Vec3) ⟨1, 0, 0⟩ = 0 ∧
    det3 ⟨⟨1, 0, 0⟩, ⟨0, 1, 0⟩, ⟨0, 0, 1⟩⟩ ≠ 0 ∧
    orthogonal_dist_i ⟨⟨1, 0, 0⟩, ⟨0, 1, 0⟩, ⟨0, 0, 1⟩⟩
        [[(⟨0, 0, 0⟩ : Vec3)]] [(⟨10, 0, 0⟩ : Vec3)]
      ≠ general_dist_i ⟨⟨1, 0, 0⟩, ⟨0, 1, 0⟩, ⟨0, 0, 1⟩⟩
        [[(⟨0, 0, 0⟩ : Vec3)]] [(⟨10, 0, 0⟩ : Vec3)] := by
  refine ⟨by norm_num [dotV], by norm_num [dotV], by norm_num [dotV],
    by norm_num [det3], ?_⟩
  have h1a : orthogonal_dist_i ⟨⟨1, 0, 0⟩, ⟨0, 1, 0⟩, ⟨0, 0, 1⟩⟩
      [[(⟨0, 0, 0⟩ : Vec3)]] [(⟨10, 0, 0⟩ : Vec3)]
      = [[orthogonal_dist_one ⟨⟨1, 0, 0⟩, ⟨0, 1, 0⟩, ⟨0, 0, 1⟩⟩
          ((⟨10, 0, 0⟩ : Vec3) - ⟨0, 0, 0⟩)]] := rfl
  have h1b : orthogonal_dist_one ⟨⟨1, 0, 0⟩, ⟨0, 1, 0⟩, ⟨0, 0, 1⟩⟩
      ((⟨10, 0, 0⟩ : Vec3) - ⟨0, 0, 0⟩) = ⟨0, 0, 0⟩ := by
    norm_num [orthogonal_dist_one, inv3, det3, rowMul, wrapVec,
      wrapHalf, pymod1, Int.fract, Vec3.sub_def]
  have h2a : general_dist_i ⟨⟨1, 0, 0⟩, ⟨0, 1, 0⟩, ⟨0, 0, 1⟩⟩
      [[(⟨0, 0, 0⟩ : Vec3)]] [(⟨10, 0, 0⟩ : Vec3)]
      = [[general_dist_one ⟨⟨1, 0, 0⟩, ⟨0, 1, 0⟩, ⟨0, 0, 1⟩⟩
          ((⟨10, 0, 0⟩ : Vec3) - ⟨0, 0, 0⟩)]] := rfl
  have h2b : general_dist_one ⟨⟨1, 0, 0⟩, ⟨0, 1, 0⟩, ⟨0, 0, 1⟩⟩
      ((⟨10, 0, 0⟩ : Vec3) - ⟨0, 0, 0⟩) = ⟨9, 0, 0⟩ := by
    norm_num [general_dist_one, shiftsOf, point_list, intVec, rowMul,
      argminIdx, argminAux, normSq, dotV, Vec3.add_def, Vec3.sub_def]
  rw [h1a, h1b, h2a, h2b]
  intro h
  simp [Vec3.mk.injEq] at h

/-- C3 (amended): for every lattice whose three lattice vectors are mutually
orthogonal (and invertible), and for every input whose raw displacements all
have fractional coordinates in `[-3/2, 3/2)` — so that the wrapping shift is
one of the 27 candidate images — the orthogonal fast path returns exactly the
same minimum-image displacement array as the general 27-image search. -/
theorem c3_orthogonal_equiv_amended (L : Mat3) (configs : List (List Vec3))
    (vec : List Vec3) (hdet : det3 L ≠ 0)
    (hab : dotV L.a L.b = 0) (hbc : dotV L.b L.c = 0) (hca : dotV L.c L.a = 0)
    (hstrip : ∀ c e, c < vec.length → c < configs.length →
      e < (configs.getD c []).length →
      -(3/2) ≤ (rowMul (vec.getD c 0 - (configs.getD c []).getD e 0) (inv3 L)).x ∧
      (rowMul (vec.getD c 0 - (configs.getD c []).getD e 0) (inv3 L)).x < 3/2 ∧
      -(3/2) ≤ (rowMul (vec.getD c 0 - (configs.getD c []).getD e 0) (inv3 L)).y ∧
      (rowMul (vec.getD c 0 - (configs.getD c []).getD e 0) (inv3 L)).y < 3/2 ∧
      -(3/2) ≤ (rowMul (vec.getD c 0 - (configs.getD c []).getD e 0) (inv3 L)).z ∧
      (rowMul (vec.getD c 0 - (configs.getD c []).getD e 0) (inv3 L)).z < 3/2) :
    orthogonal_dist_i L configs vec = general_dist_i L configs vec := by
  unfold orthogonal_dist_i general_dist_i
  apply List.ext_getElem
  · rw [List.length_zipWith, List.length_zipWith]
  · intro c h1 h2
    rw [List.getElem_zipWith, List.getElem_zipWith]
    have hcv : c < vec.length := by
      rw [List.length_zipWith] at h1
      omega
    have hcc : c < configs.length := by
      rw [List.length_zipWith] at h1
      omega
    apply List.ext_getElem
    · simp
    · intro e he1 he2
      rw [List.getElem_map, List.getElem_map]
      have hee : e < configs[c].length := by simpa using he1
      have hgd : vec.getD c 0 = vec[c] := List.getD_eq_getElem _ _ hcv
      have hgc : configs.getD c [] = configs[c] := List.getD_eq_getElem _ _ hcc
      have hee' : e < (configs.getD c []).length := by rw [hgc]; exact hee
      have hge : (configs.getD c []).getD e 0 = configs[c][e] := by
        rw [hgc]
        exact List.getD_eq_getElem _ _ hee
      obtain ⟨b1, b2, b3, b4, b5, b6⟩ := hstrip c e hcv hcc hee'
      rw [hgd, hge] at b1 b2 b3 b4 b5 b6
      exact orth_eq_general_one L hdet hab hbc hca (vec[c] - configs[c][e])
        b1 b2 b3 b4 b5 b6

/-- Witness for the amended C3: identity lattice, one walker, one particle,
raw displacement `(1/4, 0, 0)` well inside the strip. -/
theorem c3_orthogonal_equiv_amended_witness :
    (det3 ⟨⟨1, 0, 0⟩, ⟨0, 1, 0⟩, ⟨0, 0, 1⟩⟩ ≠ 0 ∧
     dotV (⟨1, 0, 0⟩ : Vec3) ⟨0, 1, 0⟩ = 0) ∧
    orthogonal_dist_i ⟨⟨1, 0, 0⟩, ⟨0, 1, 0⟩, ⟨0, 0, 1⟩⟩
        [[(⟨0, 0, 0⟩ : Vec3)]] [(⟨1/4, 0, 0⟩ : Vec3)]
      = general_dist_i ⟨⟨1, 0, 0⟩, ⟨0, 1, 0⟩, ⟨0, 0, 1⟩⟩
        [[(⟨0, 0, 0⟩ : Vec3)]] [(⟨1/4, 0, 0⟩ : Vec3)] := by
  have hdet : det3 ⟨⟨1, 0, 0⟩, ⟨0, 1, 0⟩, ⟨0, 0, 1⟩⟩ ≠ 0 := by norm_num [det3]
  have hab : dotV (⟨1, 0, 0⟩ : Vec3) ⟨0, 1, 0⟩ = 0 := by norm_num [dotV]
  have hbc : dotV (⟨0, 1, 0⟩ : Vec3) ⟨0, 0, 1⟩ = 0 := by norm_num [dotV]
  have hca : dotV (⟨0, 0, 1⟩ : Vec3) ⟨1, 0, 0⟩ = 0 := by norm_num [dotV]
  refine ⟨⟨hdet, hab⟩, ?_⟩
  apply c3_orthogonal_equiv_amended _ _ _ hdet hab hbc hca
  intro c e hc1 hc2 he
  have hc0 : c = 0 := by simpa using Nat.lt_one_iff.mp (by simpa using hc1)
  subst hc0
  have he0 : e = 0 := by simpa using Nat.lt_one_iff.mp (by simpa using he)
  subst he0
  norm_num [rowMul, inv3, det3, Vec3.sub_def]
